import Mathlib

/-!
# Print (ArduinoAPI/Print.cpp) : a shallow embedding

Bytes, characters and machine integers are natural numbers or integers with
the reductions of the C conversions written out.  The byte sink is the
virtual method `write(uint8)`; it is a parameter `w` of every function, and
the state of the sink is passed explicitly.  Undefined behaviour of the C
code (division by zero, an index outside a fixed buffer, a read behind the
end of a string) is an error result.
-/

namespace Print

/-- Ways in which the C code leaves defined behaviour. -/
inductive Err
  | divByZero
  | bufferOverflow
  | readOutOfBounds
  | vaArg
  | outOfFuel
  deriving DecidableEq, Repr

/-- The virtual `size_t write(uint8)` of a concrete sink: new state and returned count. -/
abbrev Writer (σ : Type) := σ → Nat → σ × Nat

/-- A sink that stores every byte it is given and returns 1. -/
def recWrite : Writer (List Nat) := fun out b => (out ++ [b], 1)

/-- Conversion to `uint8` / `char` of a non-negative value. -/
def toU8 (n : Nat) : Nat := n % 256

/-- Conversion of a signed integer to `uint8`. -/
def toU8i (n : Int) : Nat := (n % 256).toNat

/-- Conversion of a signed integer to `unsigned long long`. -/
def toU64 (n : Int) : Nat := (n % 2 ^ 64).toNat

/-- Wrap an integer into the range of `long long`. -/
def wrapS64 (n : Int) : Int := (n + 2 ^ 63) % 2 ^ 64 - 2 ^ 63

/-- Addition of `size_t` values (32 bits on the Cortex-M targets). -/
def sizeAdd (a b : Nat) : Nat := (a + b) % 2 ^ 32

/-- Modelled from the spec: the constant `BYTE` of Print.h, which is not among the
sources; the spec reserves base 0 as the sentinel BYTE. -/
def BYTE : Int := 0

/-- `size_t Print::write(const char *str)`: the string is the memory from the pointer
on; the loop stops at the first NUL and counts the characters itself. -/
def write_str {σ : Type} (w : Writer σ) : σ → List Nat → Nat → Except Err (σ × Nat)
  | _, [], _ => .error .readOutOfBounds
  | st, c :: rest, n =>
    if c = 0 then .ok (st, n)
    else write_str w (w st (toU8 c)).1 rest (sizeAdd n 1)

/-- `size_t Print::print(char c)`. -/
def print_char {σ : Type} (w : Writer σ) (st : σ) (c : Nat) : σ × Nat :=
  w st (toU8 c)

/-- `size_t Print::print(const char str[])`. -/
def print_str {σ : Type} (w : Writer σ) (st : σ) (str : List Nat) : Except Err (σ × Nat) :=
  write_str w st str 0

/-- The first loop of `printNumber`: `while (n > 0) { buf[i++] = n % base; n /= base; }`.
`buf` holds the `i` entries written so far and `room` is what is left of the
`CHAR_BIT * sizeof(long long)` entries of the array. -/
def digitLoop (base : Nat) : Nat → Nat → List Nat → Except Err (List Nat)
  | room, n, buf =>
    if n = 0 then .ok buf
    else if base = 0 then .error .divByZero
    else
      match room with
      | 0 => .error .bufferOverflow
      | room + 1 => digitLoop base room (n / base) (buf ++ [toU8 (n % base)])

/-- The character printed for one buffer entry:
`(char)(buf[i - 1] < 10 ? '0' + buf[i - 1] : 'A' + buf[i - 1] - 10)`. -/
def digitChar (d : Nat) : Nat :=
  toU8 (if d < 10 then 48 + d else 65 + d - 10)

/-- The second loop of `printNumber`: `for (; i > 0; i--) s += print(...)`. -/
def emitLoop {σ : Type} (w : Writer σ) (buf : List Nat) : Nat → σ → Nat → σ × Nat
  | 0, st, s => (st, s)
  | i + 1, st, s =>
    let r := print_char w st (digitChar (buf.getD i 0))
    emitLoop w buf i r.1 (sizeAdd s r.2)

/-- `size_t Print::printNumber(unsigned long long n, uint8 base)`. -/
def printNumber {σ : Type} (w : Writer σ) (st : σ) (n base : Nat) : Except Err (σ × Nat) :=
  if n = 0 then .ok ((print_char w st 48).1, 1)
  else
    match digitLoop base 64 n [] with
    | .error e => .error e
    | .ok buf => .ok (emitLoop w buf buf.length st 0)

/-- `size_t Print::print(long long n, int base)`. -/
def print_ll {σ : Type} (w : Writer σ) (st : σ) (n base : Int) : Except Err (σ × Nat) :=
  if base = BYTE then .ok (w st (toU8i n))
  else if n < 0 then
    printNumber w (print_char w st 45).1 (toU64 (wrapS64 (-n))) (toU8i base)
  else printNumber w st (toU64 n) (toU8i base)

/-- `size_t Print::print(unsigned long long n, int base)`. -/
def print_ull {σ : Type} (w : Writer σ) (st : σ) (n : Nat) (base : Int) :
    Except Err (σ × Nat) :=
  if base = BYTE then .ok (w st (toU8 n))
  else printNumber w st n (toU8i base)

/-- `size_t Print::print(int n, int base)`. -/
def print_int {σ : Type} (w : Writer σ) (st : σ) (n base : Int) : Except Err (σ × Nat) :=
  print_ll w st n base

/-- `size_t Print::println(void)`. -/
def println_void {σ : Type} (w : Writer σ) (st : σ) : σ × Nat :=
  let r1 := print_char w st 13
  let r2 := print_char w r1.1 10
  (r2.1, sizeAdd r1.2 r2.2)

/-- The common tail of every `println` overload: `n += println(); return n;`. -/
def thenLn {σ : Type} (w : Writer σ) (r : Except Err (σ × Nat)) : Except Err (σ × Nat) :=
  match r with
  | .error e => .error e
  | .ok (st, n) =>
    let r2 := println_void w st
    .ok (r2.1, sizeAdd n r2.2)

/-- `size_t Print::println(char c)`. -/
def println_char {σ : Type} (w : Writer σ) (st : σ) (c : Nat) : Except Err (σ × Nat) :=
  thenLn w (.ok (print_char w st c))

/-- `size_t Print::println(const char c[])`. -/
def println_str {σ : Type} (w : Writer σ) (st : σ) (str : List Nat) : Except Err (σ × Nat) :=
  thenLn w (print_str w st str)

/-- `size_t Print::println(long long n, int base)`. -/
def println_ll {σ : Type} (w : Writer σ) (st : σ) (n base : Int) : Except Err (σ × Nat) :=
  thenLn w (print_ll w st n base)

/-- `size_t Print::println(unsigned long long n, int base)`. -/
def println_ull {σ : Type} (w : Writer σ) (st : σ) (n : Nat) (base : Int) :
    Except Err (σ × Nat) :=
  thenLn w (print_ull w st n base)

/-- Reading a numeral in base `b`, as the round-trip property words it: digits
'0'-'9' stand for 0..9 and 'A'-'Z' for 10..35; any other character, a digit
that is not below the base, or an empty text is rejected. -/
def specDigit (c : Nat) : Option Nat :=
  if 48 ≤ c ∧ c ≤ 57 then some (c - 48)
  else if 65 ≤ c ∧ c ≤ 90 then some (c - 55)
  else none

/-- One step of `specParse`. -/
def specStep (b : Nat) (acc : Option Nat) (c : Nat) : Option Nat :=
  match acc, specDigit c with
  | some a, some d => if d < b then some (a * b + d) else none
  | _, _ => none

/-- The base-`b` value of a text, most significant digit first. -/
def specParse (b : Nat) (cs : List Nat) : Option Nat :=
  match cs with
  | [] => none
  | _ => cs.foldl (specStep b) (some 0)

/-! ### The format-string engine (`PRINT_SUPPORTS_PRINTF`) -/

/-- `#define PAD_RIGHT 1`. -/
def PAD_RIGHT : Nat := 1

/-- `#define PAD_ZERO 2`. -/
def PAD_ZERO : Nat := 2

/-- Wrap an integer into the range of a 32-bit `int`. -/
def wrapS32 (n : Int) : Int := (n + 2 ^ 31) % 2 ^ 32 - 2 ^ 31

/-- Conversion of a signed integer to `unsigned int`. -/
def toU32 (n : Int) : Nat := (n % 2 ^ 32).toNat

/-- Where `xprintchar` puts a character: `mem` is the caller's buffer of `sprintf` and
`pos` is `*out` as an index into it, `none` when `out` is the null pointer; `sink` is
the state of the object's own `write`. -/
structure Out (σ : Type) where
  sink : σ
  mem : List Nat
  pos : Option Nat

/-- One variadic argument, read by `va_arg(args, int)`: an `int`, or a pointer to
the characters found at it. -/
inductive Arg
  | int (i : Int)
  | str (s : List Nat)
  deriving DecidableEq, Repr

/-- `void Print::xprintchar(char **str, int c)`. -/
def xprintchar {σ : Type} (w : Writer σ) (o : Out σ) (c : Nat) : Except Err (Out σ) :=
  match o.pos with
  | some p =>
    if p < o.mem.length then .ok { o with mem := o.mem.set p (toU8 c), pos := some (p + 1) }
    else .error .bufferOverflow
  | none => .ok { o with sink := (w o.sink (toU8 c)).1 }

/-- The loop `for (ptr = string; *ptr; ++ptr) ++len;` of `xprints`. -/
def lenLoop : List Nat → Int → Except Err Int
  | [], _ => .error .readOutOfBounds
  | c :: rest, len => if c = 0 then .ok len else lenLoop rest (wrapS32 (len + 1))

/-- The loops `for ( ; width > 0; --width) { xprintchar (out, padchar); ++pc; }` of
`xprints`, run `k` times. -/
def padLoop {σ : Type} (w : Writer σ) (padchar : Nat) :
    Nat → Out σ → Int → Except Err (Out σ × Int)
  | 0, o, pc => .ok (o, pc)
  | k + 1, o, pc =>
    match xprintchar w o padchar with
    | .error e => .error e
    | .ok o1 => padLoop w padchar k o1 (wrapS32 (pc + 1))

/-- The loop `for ( ; *string ; ++string) { xprintchar (out, *string); ++pc; }` of
`xprints`. -/
def strLoop {σ : Type} (w : Writer σ) : List Nat → Out σ → Int → Except Err (Out σ × Int)
  | [], _, _ => .error .readOutOfBounds
  | c :: rest, o, pc =>
    if c = 0 then .ok (o, pc)
    else
      match xprintchar w o c with
      | .error e => .error e
      | .ok o1 => strLoop w rest o1 (wrapS32 (pc + 1))

/-- `int Print::xprints(char **out, const char *string, int width, int pad)`. -/
def xprints {σ : Type} (w : Writer σ) (o : Out σ) (string : List Nat) (width : Int)
    (pad : Nat) : Except Err (Out σ × Int) :=
  let adj : Except Err (Int × Nat) :=
    if 0 < width then
      match lenLoop string 0 with
      | .error e => .error e
      | .ok len =>
        .ok (if len ≥ width then 0 else wrapS32 (width - len),
             if pad &&& PAD_ZERO ≠ 0 then 48 else 32)
    else .ok (width, 32)
  match adj with
  | .error e => .error e
  | .ok (width1, padchar) =>
    let left : Except Err ((Out σ × Int) × Int) :=
      if pad &&& PAD_RIGHT = 0 then
        match padLoop w padchar width1.toNat o 0 with
        | .error e => .error e
        | .ok r => .ok (r, min width1 0)
      else .ok ((o, 0), width1)
    match left with
    | .error e => .error e
    | .ok (r1, width2) =>
      match strLoop w string r1.1 r1.2 with
      | .error e => .error e
      | .ok r2 => padLoop w padchar width2.toNat r2.1 r2.2

/-- The loop `while (u) { t = u % b; if (t >= 10) t += letbase - '0' - 10;
*--s = (char)(t + '0'); u /= b; }` of `xprinti`.  `s` is the text from the pointer `s`
up to and including the NUL at `print_buf[PRINT_BUF_LEN - 1]`, and `room` is the number
of bytes of `print_buf` in front of it. -/
def digitsLoop (b : Nat) (letbase : Int) : Nat → Nat → List Nat → Except Err (List Nat)
  | room, u, s =>
    if u = 0 then .ok s
    else if b = 0 then .error .divByZero
    else
      match room with
      | 0 => .error .bufferOverflow
      | room + 1 =>
        let t : Int := wrapS32 ((u % b : Nat) : Int)
        let t1 : Int := if t ≥ 10 then wrapS32 (t + (letbase - 48 - 10)) else t
        digitsLoop b letbase room (u / b) (toU8i (t1 + 48) :: s)

/-- `int Print::xprinti(char **out, int i, int b, int sg, int width, int pad, int letbase)`,
with `PRINT_BUF_LEN` 12. -/
def xprinti {σ : Type} (w : Writer σ) (o : Out σ) (i b sg width : Int) (pad : Nat)
    (letbase : Int) : Except Err (Out σ × Int) :=
  if i = 0 then xprints w o [48, 0] width pad
  else
    let neg : Bool := decide (sg ≠ 0 ∧ b = 10 ∧ i < 0)
    let u : Nat := if neg then toU32 (wrapS32 (-i)) else toU32 i
    match digitsLoop (toU32 b) letbase 11 u [0] with
    | .error e => .error e
    | .ok s =>
      if neg then
        if width ≠ 0 ∧ pad &&& PAD_ZERO ≠ 0 then
          match xprintchar w o 45 with
          | .error e => .error e
          | .ok o1 =>
            match xprints w o1 s (wrapS32 (width - 1)) pad with
            | .error e => .error e
            | .ok (o2, n) => .ok (o2, wrapS32 (1 + n))
        else if s.length < 12 then xprints w o (45 :: s) width pad
        else .error .bufferOverflow
      else xprints w o s width pad

/-- The loop `while (*format == '0') { ++format; pad |= PAD_ZERO; }` of `xprint`. -/
def skipZeros : List Nat → Nat → Except Err (List Nat × Nat)
  | [], _ => .error .readOutOfBounds
  | c :: rest, pad =>
    if c = 48 then skipZeros rest (pad ||| PAD_ZERO) else .ok (c :: rest, pad)

/-- The loop `for ( ; *format >= '0' && *format <= '9'; ++format)
{ width *= 10; width += *format - '0'; }` of `xprint`. -/
def readWidth : List Nat → Int → Except Err (List Nat × Int)
  | [], _ => .error .readOutOfBounds
  | c :: rest, width =>
    if 48 ≤ c ∧ c ≤ 57 then
      readWidth rest (wrapS32 (wrapS32 (width * 10) + ((c : Int) - 48)))
    else .ok (c :: rest, width)

/-- The chain of `if( *format == ... )` of `xprint` for the conversion character `d`:
the new output state, the count to add to `pc` and the arguments left.  A character
that is none of `s d x X u c` prints nothing and takes no argument. -/
def directive {σ : Type} (w : Writer σ) (o : Out σ) (d : Nat) (width : Int) (pad : Nat)
    (args : List Arg) : Except Err (Out σ × Int × List Arg) :=
  if d = 115 then
    match args with
    | Arg.str s :: args1 =>
      match xprints w o s width pad with
      | .error e => .error e
      | .ok (o1, n) => .ok (o1, n, args1)
    | Arg.int 0 :: args1 =>
      match xprints w o [40, 110, 117, 108, 108, 41, 0] width pad with
      | .error e => .error e
      | .ok (o1, n) => .ok (o1, n, args1)
    | _ => .error .vaArg
  else if d = 100 ∨ d = 120 ∨ d = 88 ∨ d = 117 then
    match args with
    | Arg.int i :: args1 =>
      let r :=
        if d = 100 then xprinti w o i 10 1 width pad 97
        else if d = 120 then xprinti w o i 16 0 width pad 97
        else if d = 88 then xprinti w o i 16 0 width pad 65
        else xprinti w o i 10 0 width pad 97
      match r with
      | .error e => .error e
      | .ok (o1, n) => .ok (o1, n, args1)
    | _ => .error .vaArg
  else if d = 99 then
    match args with
    | Arg.int i :: args1 =>
      match xprints w o [toU8i i, 0] width pad with
      | .error e => .error e
      | .ok (o1, n) => .ok (o1, n, args1)
    | _ => .error .vaArg
  else .ok (o, 0, args)

/-- The `for (; *format != 0; ++format)` loop of `xprint`; every turn consumes at
least one character of the format, and `fuel` bounds the number of turns. -/
def xprintLoop {σ : Type} (w : Writer σ) :
    Nat → Out σ → List Nat → List Arg → Int → Except Err (Out σ × Int)
  | 0, _, _, _, _ => .error .outOfFuel
  | fuel + 1, o, fmt, args, pc =>
    match fmt with
    | [] => .error .readOutOfBounds
    | c :: rest =>
      if c = 0 then .ok (o, pc)
      else if c = 37 then
        match rest with
        | [] => .error .readOutOfBounds
        | c1 :: rest1 =>
          if c1 = 0 then .ok (o, pc)
          else if c1 = 37 then
            match xprintchar w o c1 with
            | .error e => .error e
            | .ok o1 => xprintLoop w fuel o1 rest1 args (wrapS32 (pc + 1))
          else
            let f1 : List Nat × Nat := if c1 = 45 then (rest1, PAD_RIGHT) else (c1 :: rest1, 0)
            match skipZeros f1.1 f1.2 with
            | .error e => .error e
            | .ok (f2, pad) =>
              match readWidth f2 0 with
              | .error e => .error e
              | .ok (f3, width) =>
                match f3 with
                | [] => .error .readOutOfBounds
                | d :: rest3 =>
                  match directive w o d width pad args with
                  | .error e => .error e
                  | .ok (o1, n, args1) => xprintLoop w fuel o1 rest3 args1 (wrapS32 (pc + n))
      else
        match xprintchar w o c with
        | .error e => .error e
        | .ok o1 => xprintLoop w fuel o1 rest args (wrapS32 (pc + 1))

/-- `int Print::xprint(char **out, const char *format, va_list args)`. -/
def xprint {σ : Type} (w : Writer σ) (o : Out σ) (format : List Nat) (args : List Arg) :
    Except Err (Out σ × Int) :=
  match xprintLoop w (format.length + 1) o format args 0 with
  | .error e => .error e
  | .ok (o1, pc) =>
    match o1.pos with
    | some p =>
      if p < o1.mem.length then .ok ({ o1 with mem := o1.mem.set p 0 }, pc)
      else .error .bufferOverflow
    | none => .ok (o1, pc)

/-- `int Print::printf(const char *format, ...)`: the sink after the call and the
returned count. -/
def printf {σ : Type} (w : Writer σ) (st : σ) (format : List Nat) (args : List Arg) :
    Except Err (σ × Int) :=
  match xprint w { sink := st, mem := [], pos := none } format args with
  | .error e => .error e
  | .ok (o, pc) => .ok (o.sink, pc)

/-- `int Print::sprintf(char *out, const char *format, ...)`: the caller's buffer after
the call and the returned count. -/
def sprintf {σ : Type} (w : Writer σ) (st : σ) (out : List Nat) (format : List Nat)
    (args : List Arg) : Except Err (List Nat × Int) :=
  match xprint w { sink := st, mem := out, pos := some 0 } format args with
  | .error e => .error e
  | .ok (o, pc) => .ok (o.mem, pc)

/-- The characters handed to `xprintchar` one after the other. -/
def emitAll {σ : Type} (w : Writer σ) : List Nat → Out σ → Except Err (Out σ)
  | [], o => .ok o
  | c :: cs, o =>
    match xprintchar w o c with
    | .error e => .error e
    | .ok o1 => emitAll w cs o1

/-- The characters `cs` handed to `xprintchar`, and then the count `n` returned. -/
def emitRet {σ : Type} (w : Writer σ) (cs : List Nat) (o : Out σ) (n : Int) :
    Except Err (Out σ × Int) :=
  match emitAll w cs o with
  | .error e => .error e
  | .ok o1 => .ok (o1, n)

/-- The text `xprints` produces for the NUL-free string `t`: `t` with
`width - length t` pad characters (none when that is negative), in front of it unless
`PAD_RIGHT` is set; the pad character is '0' with `PAD_ZERO` and ' ' without. -/
def xprintsText (t : List Nat) (width : Int) (pad : Nat) : List Nat :=
  let fill := List.replicate (width - (t.length : Int)).toNat
    (if pad &&& PAD_ZERO ≠ 0 then 48 else 32)
  if pad &&& PAD_RIGHT = 0 then fill ++ t else t ++ fill

/-- The character `xprinti` stores for the digit value `t`:
`if (t >= 10) t += letbase - '0' - 10; (char)(t + '0')`. -/
def xdigit (letbase : Int) (t : Nat) : Nat :=
  toU8i ((if (t : Int) ≥ 10 then wrapS32 ((t : Int) + (letbase - 48 - 10)) else (t : Int)) + 48)

/-- The digits of `u` in base `b`, most significant first, as `xprinti` writes them. -/
def digitsText (b : Nat) (letbase : Int) (u : Nat) : List Nat :=
  (Nat.digits b u).reverse.map (xdigit letbase)

/-- The text `xprinti` produces, case by case as the function goes. -/
def xprintiText (i b sg width : Int) (pad : Nat) (letbase : Int) : List Nat :=
  if i = 0 then xprintsText [48] width pad
  else if sg ≠ 0 ∧ b = 10 ∧ i < 0 then
    if width ≠ 0 ∧ pad &&& PAD_ZERO ≠ 0 then
      45 :: xprintsText (digitsText (toU32 b) letbase (toU32 (wrapS32 (-i))))
        (wrapS32 (width - 1)) pad
    else xprintsText (45 :: digitsText (toU32 b) letbase (toU32 (wrapS32 (-i)))) width pad
  else xprintsText (digitsText (toU32 b) letbase (toU32 i)) width pad

/-- The decimal numeral of a field width as it stands in a format; empty for 0. -/
def decimalText (n : Nat) : List Nat := (Nat.digits 10 n).reverse.map (fun d => 48 + d)

/-- A supported conversion together with the argument it reads: `%s` with a string
(its characters `t`, the NUL, and whatever memory follows) or with the null pointer,
and `%d %x %X %u %c` with an `int`. -/
inductive Conv
  | s (t rest : List Nat)
  | snull
  | d (i : Int)
  | x (i : Int)
  | X (i : Int)
  | u (i : Int)
  | c (i : Int)

/-- The conversion character. -/
def Conv.char : Conv → Nat
  | .s _ _ => 115
  | .snull => 115
  | .d _ => 100
  | .x _ => 120
  | .X _ => 88
  | .u _ => 117
  | .c _ => 99

/-- The variadic argument of the conversion. -/
def Conv.arg : Conv → Arg
  | .s t rest => Arg.str (t ++ 0 :: rest)
  | .snull => Arg.int 0
  | .d i => Arg.int i
  | .x i => Arg.int i
  | .X i => Arg.int i
  | .u i => Arg.int i
  | .c i => Arg.int i

/-- A string argument is NUL-free up to its terminator and shorter than 2^31. -/
def Conv.wf : Conv → Prop
  | .s t _ => (∀ c ∈ t, c ≠ 0) ∧ t.length < 2 ^ 31
  | _ => True

instance Conv.decidableWf (conv : Conv) : Decidable conv.wf := by
  cases conv <;> unfold Conv.wf <;> infer_instance

/-- The `pad` flags `xprint` computes from the '-' flag and the number of '0' flags. -/
def padOf (left : Bool) (zeros : Nat) : Nat :=
  if zeros > 0 then (if left then PAD_RIGHT else 0) ||| PAD_ZERO
  else (if left then PAD_RIGHT else 0)

/-- The text a conversion produces for field width `width` and flags `pad`. -/
def Conv.out (width : Int) (pad : Nat) : Conv → List Nat
  | .s t _ => xprintsText t width pad
  | .snull => xprintsText [40, 110, 117, 108, 108, 41] width pad
  | .d i => xprintiText i 10 1 width pad 97
  | .x i => xprintiText i 16 0 width pad 97
  | .X i => xprintiText i 16 0 width pad 65
  | .u i => xprintiText i 10 0 width pad 97
  | .c i => xprintsText (if toU8i i = 0 then [] else [toU8i i]) width pad

/-- One item of a format that uses only what `xprint` supports: an ordinary
character, `%%`, or a directive `%[-][0...][width]conv` with its argument. -/
inductive Item
  | lit (ch : Nat)
  | percent
  | dir (left : Bool) (zeros : Nat) (width : Nat) (conv : Conv)

/-- The characters of the item in the format string. -/
def Item.format : Item → List Nat
  | .lit ch => [ch]
  | .percent => [37, 37]
  | .dir left zeros width conv =>
    37 :: ((if left then [45] else []) ++ (List.replicate zeros 48 ++
      (decimalText width ++ [conv.char])))

/-- The variadic arguments the item reads. -/
def Item.args : Item → List Arg
  | .dir _ _ _ conv => [conv.arg]
  | _ => []

/-- An ordinary character is neither NUL nor '%'; a field width is an `int`. -/
def Item.wf : Item → Prop
  | .lit ch => ch ≠ 0 ∧ ch ≠ 37
  | .percent => True
  | .dir _ _ width conv => width < 2 ^ 31 ∧ conv.wf

instance Item.decidableWf (it : Item) : Decidable it.wf := by
  cases it <;> unfold Item.wf <;> infer_instance

/-- The text the item produces. -/
def Item.out : Item → List Nat
  | .lit ch => [ch]
  | .percent => [37]
  | .dir left zeros width conv => conv.out (width : Int) (padOf left zeros)

/-- The format string of a list of items. -/
def formatOf : List Item → List Nat
  | [] => []
  | it :: its => it.format ++ formatOf its

/-- The variadic arguments of a list of items. -/
def argsOf : List Item → List Arg
  | [] => []
  | it :: its => it.args ++ argsOf its

/-- The text a list of items produces. -/
def outOf : List Item → List Nat
  | [] => []
  | it :: its => it.out ++ outOf its

/-- The text of a `%d` argument: "0", or the decimal digits with '-' in front of
them for a negative value. -/
def intText (i : Int) : List Nat :=
  if i = 0 then [48]
  else if i < 0 then 45 :: decimalText i.natAbs
  else decimalText i.natAbs

/-- The text `%0<wd>d` is to produce for a negative number with decimal digits
`digits`: the sign, `wd - 1 - length digits` zeros, the digits. -/
def zeroPadNeg (wd : Nat) (digits : List Nat) : List Nat :=
  45 :: (List.replicate (wd - 1 - digits.length) 48 ++ digits)

/-- The text `t` padded with `wd - length t` spaces: in front of it, or behind it when
`left` (the '-' flag) is set. -/
def spacePad (left : Bool) (wd : Nat) (t : List Nat) : List Nat :=
  if left then t ++ List.replicate (wd - t.length) 32
  else List.replicate (wd - t.length) 32 ++ t

/-- The characters of a directive `%[-][0...][width]c` in the format string, for any
character `c` in the place of the conversion. -/
def directiveText (left : Bool) (zeros width c : Nat) : List Nat :=
  37 :: ((if left then [45] else []) ++ (List.replicate zeros 48 ++ (decimalText width ++ [c])))

/-- A character that `xprint` reaches as the conversion of a directive and does not
know: not the NUL, none of `s d x X u c`, not a digit (it would belong to the width),
and, right behind the '%', neither '-' (the flag) nor '%'. -/
def UnknownConv (left : Bool) (zeros width c : Nat) : Prop :=
  c ≠ 0 ∧ c ≠ 115 ∧ c ≠ 100 ∧ c ≠ 120 ∧ c ≠ 88 ∧ c ≠ 117 ∧ c ≠ 99 ∧ ¬ (48 ≤ c ∧ c ≤ 57) ∧
    (left = false ∧ zeros = 0 ∧ width = 0 → c ≠ 45 ∧ c ≠ 37)

instance UnknownConv.decidable (left : Bool) (zeros width c : Nat) :
    Decidable (UnknownConv left zeros width c) := by
  unfold UnknownConv
  infer_instance

/-- The text `printNumber` is meant to produce: "0" for zero, otherwise the base-`b`
digits of `v`, most significant first, each through `digitChar`. -/
def numeral (b v : Nat) : List Nat :=
  if v = 0 then [48] else (Nat.digits b v).reverse.map digitChar

end Print

/-!
# Tone (ArduinoAPI/Tone.cpp) : a shallow embedding

The file-scope variables of Tone.cpp and the peripherals the file drives (the enable
flag, period and callback of every timer, the level of every pin) form one state.
Timers are the addresses `TIM_TypeDef *` as natural numbers, 0 being the null pointer.
The clock read by `millis()` is an argument of the function that reads it.
-/

namespace Tone

/-- Modelled from the spec: the value `Off` of Tone.h, which is not among the sources;
the spec gives `toneState` as the enumeration {Off, On}, and the handler tests
`!tone_State` for it. -/
def Off : Nat := 0

/-- Modelled from the spec: the value `On` of Tone.h, which is not among the sources. -/
def On : Nat := 1

/-- The variables of Tone.cpp (`ToneTimer_Last`, `ToneTimer`, `tone_State`, `tone_Pin`,
`tone_StopTimePoint`) and the peripherals. -/
structure State where
  ToneTimer_Last : Nat
  ToneTimer : Nat
  tone_State : Nat
  tone_Pin : Nat
  tone_StopTimePoint : Nat
  timerEnabled : Nat → Bool
  timerPeriod : Nat → Nat
  timerCallback : Nat → Bool
  pinLevel : Nat → Bool

/-- The state at start-up: `ToneTimer_Last = 0`, `ToneTimer = ToneTimer_Default`,
`tone_State = Off`, the other statics zero; no timer runs and no callback is set. -/
def init (ToneTimer_Default : Nat) (pins : Nat → Bool) : State :=
  { ToneTimer_Last := 0
    ToneTimer := ToneTimer_Default
    tone_State := Off
    tone_Pin := 0
    tone_StopTimePoint := 0
    timerEnabled := fun _ => false
    timerPeriod := fun _ => 0
    timerCallback := fun _ => false
    pinLevel := pins }

/-- Modelled from the spec: `TIM_Cmd(TIMx, ENABLE / DISABLE)`, the `enable(timer)` and
`disable(timer)` of the spec; the function is not among the sources. -/
def TIM_Cmd (s : State) (TIMx : Nat) (en : Bool) : State :=
  { s with timerEnabled := fun t => if t = TIMx then en else s.timerEnabled t }

/-- Modelled from the spec: `Timer_Init(TIMx, period, tone_TimerHandler, 0, 0)`, the
`initPeriodic(timer, halfPeriodUs, callback)` of the spec: it sets the period and
installs the handler; the function is not among the sources. -/
def Timer_Init (s : State) (TIMx period : Nat) : State :=
  { s with
    timerPeriod := fun t => if t = TIMx then period else s.timerPeriod t
    timerCallback := fun t => if t = TIMx then true else s.timerCallback t }

/-- Modelled from the spec: `TimerSet_InterruptTimeUpdate(TIMx, period)`, the
`setPeriod(timer, halfPeriodUs)` of the spec; the function is not among the sources. -/
def TimerSet_InterruptTimeUpdate (s : State) (TIMx period : Nat) : State :=
  { s with timerPeriod := fun t => if t = TIMx then period else s.timerPeriod t }

/-- Modelled from the spec: `togglePin(pin)` inverts the output level of the pin; the
function is not among the sources. -/
def togglePin (s : State) (pin : Nat) : State :=
  { s with pinLevel := fun p => if p = pin then !s.pinLevel p else s.pinLevel p }

/-- Modelled from the spec: `digitalWrite_LOW(pin)` forces the pin output low; the
function is not among the sources. -/
def digitalWrite_LOW (s : State) (pin : Nat) : State :=
  { s with pinLevel := fun p => if p = pin then false else s.pinLevel p }

/-- `void noTone(uint8_t Pin)`. -/
def noTone (s : State) (Pin : Nat) : State :=
  { digitalWrite_LOW (TIM_Cmd s s.ToneTimer false) Pin with tone_State := Off }

/-- `void toneSetTimer(TIM_TypeDef* TIMx)`. -/
def toneSetTimer (s : State) (TIMx : Nat) : State :=
  { s with ToneTimer := TIMx }

/-- `void tone(uint8_t Pin, uint32_t freq)`.  The period `500000.0 / freq` is handed
over as a whole number of microseconds, `500000 / freq`. -/
def tone (s : State) (Pin freq : Nat) : State :=
  if freq = 0 ∨ freq > 500000 then noTone s Pin
  else
    let s1 : State := { s with tone_Pin := Pin, tone_State := On }
    if s1.ToneTimer ≠ s1.ToneTimer_Last then
      { TIM_Cmd (Timer_Init s1 s1.ToneTimer (500000 / freq)) s1.ToneTimer true with
        ToneTimer_Last := s1.ToneTimer }
    else
      TIM_Cmd (TimerSet_InterruptTimeUpdate s1 s1.ToneTimer (500000 / freq)) s1.ToneTimer true

/-- `void tone(uint8_t Pin, uint32_t freq, uint32_t Time_ms)`, called when `millis()`
reads `now`; the sum `millis() + Time_ms` is a `uint32_t`. -/
def tone_ms (s : State) (now Pin freq Time_ms : Nat) : State :=
  if freq = 0 ∨ freq > 500000 ∨ Time_ms = 0 then noTone s Pin
  else
    { tone s Pin freq with
      tone_StopTimePoint := (now + Time_ms) % 2 ^ 32
      tone_State := Off }

/-- `void tone_TimerHandler()`, called when `millis()` reads `now`. -/
def tone_TimerHandler (s : State) (now : Nat) : State :=
  let s1 := togglePin s s.tone_Pin
  if now > s1.tone_StopTimePoint ∧ s1.tone_State = 0 then noTone s1 s1.tone_Pin
  else s1

/-- One call of the interface of the tone engine, with the clock value where the
function reads the clock. -/
inductive Call
  | setTimer (TIMx : Nat)
  | tone (Pin freq : Nat)
  | toneMs (now Pin freq Time_ms : Nat)
  | noTone (Pin : Nat)
  | handler (now : Nat)

/-- The state after one call. -/
def step (s : State) : Call → State
  | .setTimer t => toneSetTimer s t
  | .tone pin freq => tone s pin freq
  | .toneMs now pin freq ms => tone_ms s now pin freq ms
  | .noTone pin => noTone s pin
  | .handler now => tone_TimerHandler s now

/-- The state after a sequence of calls. -/
def run (s : State) (cs : List Call) : State := cs.foldl step s

/-- A sequence of calls in which `toneSetTimer` selects another timer only while the
selected timer is not running. -/
def settled : State → List Call → Bool
  | _, [] => true
  | s, c :: cs =>
    (match c with
      | .setTimer t => decide (t = s.ToneTimer) || !s.timerEnabled s.ToneTimer
      | _ => true) && settled (step s c) cs

/-- Every running timer is the selected one. -/
def OnlySelected (s : State) : Prop :=
  ∀ t, s.timerEnabled t = true → t = s.ToneTimer

/-! ### The blocking variants -/

/-- What the blocking variants do to the outside, in order. -/
inductive Event
  | write (pin : Nat) (level : Bool)
  | delay (us : Nat)
  deriving DecidableEq, Repr

/-- The board as the blocking variants see it: the microseconds elapsed, the pin
levels, and the pin writes and delays so far. -/
structure Board where
  us : Nat
  pinLevel : Nat → Bool
  trace : List Event

/-- The one fault of the blocking variants. -/
inductive Fault
  | divByZero
  deriving DecidableEq, Repr

/-- Modelled from the spec: `millis()`, a 32-bit count of milliseconds; the function is
not among the sources. -/
def millis (b : Board) : Nat := (b.us / 1000) % 2 ^ 32

/-- Modelled from the spec: `micros()`, a 32-bit count of microseconds; the function is
not among the sources. -/
def micros (b : Board) : Nat := b.us % 2 ^ 32

/-- Modelled from the spec: `delayMicroseconds(n)` waits `n` microseconds; the function
is not among the sources, and every other statement takes no time. -/
def delayMicroseconds (b : Board) (n : Nat) : Board :=
  { b with us := b.us + n, trace := b.trace ++ [Event.delay n] }

/-- Modelled from the spec: `digitalWrite_HIGH(pin)` and `digitalWrite_LOW(pin)`, the
`digitalWrite(pin, level)` of the spec; the functions are not among the sources. -/
def digitalWrite (b : Board) (pin : Nat) (level : Bool) : Board :=
  { b with
    pinLevel := fun p => if p = pin then level else b.pinLevel p
    trace := b.trace ++ [Event.write pin level] }

/-- Division of `uint32_t` values, with the zero divisor as a fault. -/
def udiv (a b : Nat) : Except Fault Nat :=
  if b = 0 then .error .divByZero else .ok (a / b)

/-- The body of the `do ... while` loops: `digitalWrite_HIGH(Pin);
delayMicroseconds(dlHigh); digitalWrite_LOW(Pin); delayMicroseconds(dlLow);`. -/
def cycle (b : Board) (Pin dlHigh dlLow : Nat) : Board :=
  delayMicroseconds (digitalWrite (delayMicroseconds (digitalWrite b Pin true) dlHigh) Pin false)
    dlLow

/-- The loop `do { ... } while (clock() < TimePoint);` run for at most `fuel` turns:
the board, and whether the loop has ended.  `inMicros` chooses `micros()` as the
clock, otherwise it is `millis()`. -/
def blockLoop (inMicros : Bool) (Pin dlHigh dlLow TimePoint : Nat) : Nat → Board → Board × Bool
  | 0, b => (b, false)
  | fuel + 1, b =>
    let b1 := cycle b Pin dlHigh dlLow
    if (if inMicros then micros b1 else millis b1) < TimePoint then
      blockLoop inMicros Pin dlHigh dlLow TimePoint fuel b1
    else (b1, true)

/-- The end of the blocking variants: the loop, then `digitalWrite_LOW(Pin)` once the
loop has ended. -/
def blockRun (inMicros : Bool) (fuel : Nat) (b : Board) (Pin dlHigh dlLow TimePoint : Nat) :
    Board × Bool :=
  let r := blockLoop inMicros Pin dlHigh dlLow TimePoint fuel b
  if r.2 then (digitalWrite r.1 Pin false, true) else r

/-- `void toneBlock(uint8_t Pin, uint32_t freq, uint32_t Time_ms)`: the division
`500000 / freq` stands before the test `if(freq == 0)return;`. -/
def toneBlock (fuel : Nat) (b : Board) (Pin freq Time_ms : Nat) : Except Fault (Board × Bool) :=
  let TimePoint := (millis b + Time_ms) % 2 ^ 32
  match udiv 500000 freq with
  | .error e => .error e
  | .ok dlyus =>
    if freq = 0 then .ok (b, true)
    else .ok (blockRun false fuel b Pin dlyus dlyus TimePoint)

/-- `void toneBlock_Volumn(uint8_t Pin, uint32_t freq, uint32_t Time_ms, uint32_t vol)`,
in `uint32_t` arithmetic. -/
def toneBlock_Volumn (fuel : Nat) (b : Board) (Pin freq Time_ms vol : Nat) :
    Except Fault (Board × Bool) :=
  let TimePoint := (millis b + Time_ms) % 2 ^ 32
  match udiv 500000 freq with
  | .error e => .error e
  | .ok dlyus =>
    let dlHigh := (dlyus * vol) % 2 ^ 32 / 100
    let dlLow := (2 * dlyus % 2 ^ 32 + 2 ^ 32 - dlHigh) % 2 ^ 32
    if freq = 0 then .ok (b, true)
    else .ok (blockRun false fuel b Pin dlHigh dlLow TimePoint)

/-- `void toneBlock_Volumn_us(uint8_t Pin, uint32_t freq, uint32_t Time_us, uint32_t vol)`,
in `uint32_t` arithmetic. -/
def toneBlock_Volumn_us (fuel : Nat) (b : Board) (Pin freq Time_us vol : Nat) :
    Except Fault (Board × Bool) :=
  let TimePoint := (micros b + Time_us) % 2 ^ 32
  match udiv 500000 freq with
  | .error e => .error e
  | .ok dlyus =>
    let dlHigh := (dlyus * vol) % 2 ^ 32 / 100
    let dlLow := (2 * dlyus % 2 ^ 32 + 2 ^ 32 - dlHigh) % 2 ^ 32
    if freq = 0 then .ok (b, true)
    else .ok (blockRun true fuel b Pin dlHigh dlLow TimePoint)

/-- The events of `n` turns of the loop with the delays `dlHigh` and `dlLow`. -/
def cycles (Pin dlHigh dlLow : Nat) : Nat → List Event
  | 0 => []
  | n + 1 =>
    [Event.write Pin true, Event.delay dlHigh, Event.write Pin false, Event.delay dlLow]
      ++ cycles Pin dlHigh dlLow n

end Tone

namespace Print

/-! ## Lemmas on the integer path -/

theorem toU8_of_lt {n : Nat} (h : n < 256) : toU8 n = n := Nat.mod_eq_of_lt h

theorem digitChar_lt_ten {d : Nat} (h : d < 10) : digitChar d = 48 + d := by
  unfold digitChar
  rw [if_pos h]
  exact toU8_of_lt (by omega)

theorem digitChar_ge_ten {d : Nat} (h : 10 ≤ d) (h2 : d < 36) : digitChar d = 55 + d := by
  unfold digitChar
  rw [if_neg (by omega)]
  rw [toU8_of_lt (by omega)]
  omega

theorem specDigit_digitChar {d : Nat} (h : d < 36) : specDigit (digitChar d) = some d := by
  by_cases h10 : d < 10
  · rw [digitChar_lt_ten h10]
    unfold specDigit
    rw [if_pos (by omega)]
    congr 1
    omega
  · rw [digitChar_ge_ten (by omega) h]
    unfold specDigit
    rw [if_neg (by omega), if_pos (by omega)]
    congr 1
    omega

theorem digits_length_le_64 {b n : Nat} (hb : 2 ≤ b) (hn : n < 2 ^ 64) :
    (Nat.digits b n).length ≤ 64 := by
  by_cases h0 : n = 0
  · subst h0
    simp
  · rw [Nat.digits_len b n (by omega) h0]
    have hlog : Nat.log b n < 64 := by
      apply Nat.log_lt_of_lt_pow h0
      calc n < 2 ^ 64 := hn
        _ ≤ b ^ 64 := Nat.pow_le_pow_left hb 64
    omega

theorem digitLoop_eq (base : Nat) (hb : 2 ≤ base) (hb2 : base ≤ 256) :
    ∀ (room n : Nat) (buf : List Nat), (Nat.digits base n).length ≤ room →
      digitLoop base room n buf = .ok (buf ++ Nat.digits base n) := by
  intro room
  induction room with
  | zero =>
    intro n buf h
    have hn : n = 0 := by
      by_contra hne
      have := Nat.digits_len base n (by omega) hne
      omega
    subst hn
    simp [digitLoop]
  | succ room ih =>
    intro n buf h
    by_cases hn : n = 0
    · subst hn
      simp [digitLoop]
    · have hd : Nat.digits base n = n % base :: Nat.digits base (n / base) :=
        Nat.digits_def' (by omega) (Nat.pos_of_ne_zero hn)
      have hlt : n % base < 256 := lt_of_lt_of_le (Nat.mod_lt n (by omega)) hb2
      rw [digitLoop, if_neg hn, if_neg (by omega), toU8_of_lt hlt]
      rw [ih (n / base) (buf ++ [n % base]) (by rw [hd] at h; simpa using h), hd]
      simp

theorem emitLoop_rec (buf : List Nat) :
    ∀ (i : Nat) (out : List Nat) (s : Nat), i ≤ buf.length → s + i < 2 ^ 32 →
      emitLoop recWrite buf i out s
        = (out ++ ((buf.take i).reverse.map digitChar), s + i) := by
  intro i
  induction i with
  | zero =>
    intro out s _ _
    simp [emitLoop]
  | succ i ih =>
    intro out s hi hs
    have hget : buf.getD i 0 = buf[i] := by
      simp [List.getD, List.getElem?_eq_getElem (show i < buf.length by omega)]
    have hd : toU8 (digitChar (buf.getD i 0)) = digitChar (buf.getD i 0) := by
      apply toU8_of_lt
      unfold digitChar toU8
      exact Nat.mod_lt _ (by norm_num)
    have hsz : sizeAdd s 1 = s + 1 := Nat.mod_eq_of_lt (by omega)
    have htake : (buf.take (i + 1)).reverse = buf[i] :: (buf.take i).reverse := by
      rw [List.take_succ, List.getElem?_eq_getElem (show i < buf.length by omega)]
      simp
    simp only [emitLoop, print_char, recWrite, hd]
    rw [hsz, ih _ _ (by omega) (by omega), htake, hget]
    simp [Nat.add_assoc, Nat.add_comm 1 i]

theorem printNumber_rec (b v : Nat) (hb : 2 ≤ b) (hb2 : b ≤ 256) (hv : v < 2 ^ 64)
    (pre : List Nat) :
    printNumber recWrite pre v b = .ok (pre ++ numeral b v, (numeral b v).length) := by
  unfold printNumber numeral
  by_cases h0 : v = 0
  · simp [h0, print_char, recWrite, toU8]
  · have hlen := digits_length_le_64 hb hv
    rw [if_neg h0, if_neg h0, digitLoop_eq b hb hb2 64 v [] hlen]
    simp only [List.nil_append]
    rw [emitLoop_rec _ _ _ _ (le_refl _) (by omega)]
    simp

theorem specParse_digits (b : Nat) (hb : b ≤ 36) :
    ∀ ds : List Nat, (∀ d ∈ ds, d < b) →
      List.foldl (specStep b) (some 0) (ds.reverse.map digitChar) = some (Nat.ofDigits b ds) := by
  intro ds
  induction ds with
  | nil => intro _; simp [Nat.ofDigits]
  | cons d ds ih =>
    intro h
    have hd : d < b := h d (by simp)
    have hrest := ih (fun x hx => h x (by simp [hx]))
    rw [List.reverse_cons, List.map_append, List.foldl_append, hrest]
    simp only [List.map_cons, List.map_nil, List.foldl_cons, List.foldl_nil, specStep]
    rw [specDigit_digitChar (by omega)]
    simp only [if_pos hd, Nat.ofDigits_cons]
    congr 1
    ring

theorem specParse_numeral (b v : Nat) (hb : 2 ≤ b) (hb2 : b ≤ 36) :
    specParse b (numeral b v) = some v := by
  unfold numeral
  by_cases h0 : v = 0
  · subst h0
    have : (0 : Nat) < b := by omega
    simp [specParse, specStep, specDigit, this]
  · rw [if_neg h0]
    have hne : Nat.digits b v ≠ [] := by
      intro h
      exact h0 (Nat.digits_eq_nil_iff_eq_zero.mp h)
    have hfold := specParse_digits b hb2 (Nat.digits b v)
      (fun d hd => Nat.digits_lt_base (by omega) hd)
    rw [Nat.ofDigits_digits] at hfold
    unfold specParse
    split
    · next heq =>
      simp at heq
      exact absurd heq hne
    · exact hfold

theorem toU8i_natCast {b : Nat} (h : b < 256) : toU8i (b : Int) = b := by
  unfold toU8i
  omega

theorem natCast_ne_BYTE {b : Nat} (h : 2 ≤ b) : (b : Int) ≠ BYTE := by
  unfold BYTE
  omega

theorem toU64_wrapS64_neg_neg {v : Nat} (h : v < 2 ^ 63) :
    toU64 (wrapS64 (-(-(v : Int)))) = v := by
  unfold toU64 wrapS64
  omega

theorem print_ull_rec (b v : Nat) (hb : 2 ≤ b) (hb2 : b ≤ 36) (hv : v < 2 ^ 64)
    (pre : List Nat) :
    print_ull recWrite pre v (b : Int) = .ok (pre ++ numeral b v, (numeral b v).length) := by
  unfold print_ull
  rw [if_neg (natCast_ne_BYTE hb), toU8i_natCast (by omega)]
  exact printNumber_rec b v hb (by omega) hv pre

theorem numeral_length_le (b v : Nat) (hb : 2 ≤ b) (hv : v < 2 ^ 64) :
    (numeral b v).length ≤ 64 := by
  unfold numeral
  split
  · simp
  · simpa using digits_length_le_64 hb hv

theorem thenLn_rec (pre : List Nat) (c : Nat) (hc : c + 2 < 2 ^ 32) :
    thenLn recWrite (.ok (pre, c)) = .ok (pre ++ [13, 10], c + 2) := by
  have h1 : sizeAdd 1 1 = 2 := rfl
  have h2 : sizeAdd c 2 = c + 2 := Nat.mod_eq_of_lt hc
  simp [thenLn, println_void, print_char, recWrite, toU8, h1, h2]

theorem write_str_rec (t rest : List Nat) (ht : ∀ c ∈ t, c ≠ 0 ∧ c < 256) :
    ∀ (pre : List Nat) (n : Nat), n + t.length < 2 ^ 32 →
      write_str recWrite pre (t ++ 0 :: rest) n = .ok (pre ++ t, n + t.length) := by
  induction t with
  | nil =>
    intro pre n _
    simp [write_str]
  | cons c t ih =>
    intro pre n hn
    have hc := ht c (by simp)
    have hlen : n + 1 + t.length < 2 ^ 32 := by
      simp only [List.length_cons] at hn
      omega
    have hsz : sizeAdd n 1 = n + 1 := Nat.mod_eq_of_lt (by omega)
    have hstep : write_str recWrite pre (c :: t ++ 0 :: rest) n
        = write_str recWrite (pre ++ [c]) (t ++ 0 :: rest) (n + 1) := by
      simp only [List.cons_append, write_str, if_neg hc.1, recWrite, toU8_of_lt hc.2, hsz]
      rfl
    rw [hstep, ih (fun x hx => ht x (by simp [hx])) (pre ++ [c]) (n + 1) hlen]
    simp only [List.length_cons, List.append_assoc, List.singleton_append]
    congr 2
    omega

theorem print_ll_rec (n : Int) (b : Nat) (hn1 : -2 ^ 63 ≤ n) (hn2 : n < 2 ^ 63)
    (hb : 2 ≤ b) (hb2 : b ≤ 36) (pre : List Nat) :
    print_ll recWrite pre n (b : Int)
      = .ok (pre ++ ((if n < 0 then [45] else []) ++ numeral b n.natAbs),
          (numeral b n.natAbs).length) := by
  unfold print_ll
  rw [if_neg (natCast_ne_BYTE hb), toU8i_natCast (by omega)]
  by_cases hneg : n < 0
  · have hu : toU64 (wrapS64 (-n)) = n.natAbs := by
      unfold toU64 wrapS64
      omega
    have hp : (print_char recWrite pre 45).1 = pre ++ [45] := rfl
    rw [if_pos hneg, if_pos hneg, hu, hp, printNumber_rec b _ hb (by omega) (by omega)]
    simp
  · have hu : toU64 n = n.natAbs := by
      unfold toU64
      omega
    rw [if_neg hneg, if_neg hneg, hu, printNumber_rec b _ hb (by omega) (by omega)]
    simp

/-! ## Lemmas on the format-string engine -/

theorem wrapS32_of_range {n : Int} (h1 : -2 ^ 31 ≤ n) (h2 : n < 2 ^ 31) : wrapS32 n = n := by
  unfold wrapS32
  omega

theorem emitAll_append {σ : Type} (w : Writer σ) (a b : List Nat) :
    ∀ o : Out σ, emitAll w (a ++ b) o =
      match emitAll w a o with
      | .error e => .error e
      | .ok o1 => emitAll w b o1 := by
  induction a with
  | nil => intro o; rfl
  | cons c a ih =>
    intro o
    simp only [List.cons_append, emitAll]
    cases xprintchar w o c with
    | error e => rfl
    | ok o1 => exact ih o1

theorem padLoop_eq {σ : Type} (w : Writer σ) (c : Nat) :
    ∀ (k : Nat) (o : Out σ) (pc : Int), -2 ^ 31 ≤ pc → pc + k < 2 ^ 31 →
      padLoop w c k o pc = emitRet w (List.replicate k c) o (pc + k) := by
  intro k
  induction k with
  | zero =>
    intro o pc _ _
    simp [padLoop, emitRet, emitAll]
  | succ k ih =>
    intro o pc h1 h2
    simp only [padLoop, List.replicate_succ, emitRet, emitAll]
    cases hx : xprintchar w o c with
    | error e => rfl
    | ok o1 =>
      have hw : wrapS32 (pc + 1) = pc + 1 := wrapS32_of_range (by omega) (by push_cast at h2; omega)
      simp only [hw]
      rw [ih o1 (pc + 1) (by omega) (by push_cast at h2 ⊢; omega)]
      simp only [emitRet]
      push_cast
      rw [add_assoc, add_comm (1 : Int) (k : Int)]

theorem strLoop_eq {σ : Type} (w : Writer σ) (rest : List Nat) :
    ∀ (t : List Nat) (o : Out σ) (pc : Int), (∀ c ∈ t, c ≠ 0) → -2 ^ 31 ≤ pc →
      pc + t.length < 2 ^ 31 →
      strLoop w (t ++ 0 :: rest) o pc = emitRet w t o (pc + t.length) := by
  intro t
  induction t with
  | nil =>
    intro o pc _ _ _
    simp [strLoop, emitRet, emitAll]
  | cons c t ih =>
    intro o pc ht h1 h2
    have hc : c ≠ 0 := ht c (by simp)
    simp only [List.length_cons] at h2
    simp only [List.cons_append, strLoop, if_neg hc, emitRet, emitAll, List.append_eq]
    cases hx : xprintchar w o c with
    | error e => rfl
    | ok o1 =>
      have hw : wrapS32 (pc + 1) = pc + 1 := wrapS32_of_range (by omega) (by push_cast at h2; omega)
      simp only [hw]
      rw [ih o1 (pc + 1) (fun x hx => ht x (by simp [hx])) (by omega)
        (by push_cast at h2 ⊢; omega)]
      simp only [emitRet, List.length_cons]
      push_cast
      rw [add_assoc, add_comm (1 : Int) (t.length : Int)]

theorem lenLoop_eq (rest : List Nat) :
    ∀ (t : List Nat) (len : Int), (∀ c ∈ t, c ≠ 0) → -2 ^ 31 ≤ len →
      len + t.length < 2 ^ 31 →
      lenLoop (t ++ 0 :: rest) len = .ok (len + t.length) := by
  intro t
  induction t with
  | nil =>
    intro len _ _ _
    simp [lenLoop]
  | cons c t ih =>
    intro len ht h1 h2
    have hc : c ≠ 0 := ht c (by simp)
    simp only [List.length_cons] at h2
    have hw : wrapS32 (len + 1) = len + 1 := wrapS32_of_range (by omega) (by push_cast at h2; omega)
    simp only [List.cons_append, lenLoop, if_neg hc, hw, List.append_eq]
    rw [ih (len + 1) (fun x hx => ht x (by simp [hx])) (by omega) (by push_cast at h2 ⊢; omega)]
    simp only [List.length_cons]
    push_cast
    rw [add_assoc, add_comm (1 : Int) (t.length : Int)]

theorem emitRet_append {σ : Type} (w : Writer σ) (a b : List Nat) (o : Out σ) (n : Int) :
    emitRet w (a ++ b) o n =
      match emitAll w a o with
      | .error e => .error e
      | .ok o1 => emitRet w b o1 n := by
  unfold emitRet
  rw [emitAll_append]
  cases emitAll w a o with
  | error e => rfl
  | ok o1 => rfl

theorem emitRet_then_str {σ : Type} (w : Writer σ) (o : Out σ) (fill t rest : List Nat)
    (ht : ∀ c ∈ t, c ≠ 0) (hlen : (fill.length : Int) + t.length < 2 ^ 31) :
    (match emitRet w fill o (fill.length : Int) with
      | .error e => .error e
      | .ok r => strLoop w (t ++ 0 :: rest) r.1 r.2)
      = emitRet w (fill ++ t) o ((fill ++ t).length : Int) := by
  rw [emitRet_append]
  unfold emitRet
  cases emitAll w fill o with
  | error e => rfl
  | ok o1 =>
    simp only
    rw [strLoop_eq w rest t o1 _ ht (by omega) hlen]
    simp [emitRet]

theorem str_then_emitRet {σ : Type} (w : Writer σ) (o : Out σ) (fill t rest : List Nat)
    (c : Nat) (hf : fill = List.replicate fill.length c)
    (ht : ∀ c ∈ t, c ≠ 0) (hlen : (t.length : Int) + fill.length < 2 ^ 31) :
    (match strLoop w (t ++ 0 :: rest) o 0 with
      | .error e => .error e
      | .ok r => padLoop w c fill.length r.1 r.2)
      = emitRet w (t ++ fill) o ((t ++ fill).length : Int) := by
  rw [emitRet_append, strLoop_eq w rest t o 0 ht (by norm_num) (by omega)]
  unfold emitRet
  cases emitAll w t o with
  | error e => rfl
  | ok o1 =>
    simp only
    rw [padLoop_eq w c fill.length o1 _ (by omega) (by omega), ← hf]
    simp [emitRet]

theorem xprints_eq {σ : Type} (w : Writer σ) (o : Out σ) (t rest : List Nat) (width : Int)
    (pad : Nat) (ht : ∀ c ∈ t, c ≠ 0) (hl : (t.length : Int) < 2 ^ 31)
    (hw1 : -2 ^ 31 ≤ width) (hw2 : width < 2 ^ 31) :
    xprints w o (t ++ 0 :: rest) width pad
      = emitRet w (xprintsText t width pad) o ((xprintsText t width pad).length : Int) := by
  have hlen := lenLoop_eq rest t 0 ht (by norm_num) (by omega)
  rw [zero_add] at hlen
  -- the adjusted width and the pad character
  obtain ⟨padchar, hadj⟩ : ∃ padchar : Nat,
      (if 0 < width then
        match lenLoop (t ++ 0 :: rest) 0 with
        | .error e => (.error e : Except Err (Int × Nat))
        | .ok len =>
          .ok (if len ≥ width then 0 else wrapS32 (width - len),
               if pad &&& PAD_ZERO ≠ 0 then 48 else 32)
      else .ok (width, 32))
      = .ok (if 0 < width then ((width - (t.length : Int)).toNat : Int) else width, padchar) ∧
      List.replicate (width - (t.length : Int)).toNat padchar
        = List.replicate (width - (t.length : Int)).toNat
            (if pad &&& PAD_ZERO ≠ 0 then 48 else 32) := by
    by_cases hpos : 0 < width
    · refine ⟨if pad &&& PAD_ZERO ≠ 0 then 48 else 32, ?_, rfl⟩
      rw [if_pos hpos, if_pos hpos, hlen]
      simp only
      by_cases hge : (t.length : Int) ≥ width
      · rw [if_pos hge]
        have : (width - (t.length : Int)).toNat = 0 := by omega
        rw [this]
        rfl
      · rw [if_neg hge, wrapS32_of_range (by omega) (by omega)]
        have : ((width - (t.length : Int)).toNat : Int) = width - t.length := by omega
        rw [this]
    · refine ⟨32, ?_, ?_⟩
      · rw [if_neg hpos, if_neg hpos]
      · have : (width - (t.length : Int)).toNat = 0 := by omega
        rw [this]
        rfl
  obtain ⟨hadj1, hfill⟩ := hadj
  unfold xprints
  simp only [hadj1]
  have hk : (if 0 < width then ((width - (t.length : Int)).toNat : Int) else width).toNat
      = (width - (t.length : Int)).toNat := by
    split <;> omega
  have hfl : ((List.replicate (width - (t.length : Int)).toNat padchar).length : Int)
      + t.length < 2 ^ 31 := by
    rw [List.length_replicate]
    omega
  unfold xprintsText
  simp only [← hfill]
  by_cases hleft : pad &&& PAD_RIGHT = 0
  · simp only [if_pos hleft, hk]
    rw [padLoop_eq w padchar _ o 0 (by norm_num) (by omega)]
    have hmin : (min (if 0 < width then ((width - (t.length : Int)).toNat : Int) else width) 0).toNat
        = 0 := by
      split <;> omega
    have h := emitRet_then_str w o (List.replicate (width - (t.length : Int)).toNat padchar) t rest
      ht hfl
    rw [List.length_replicate] at h
    rw [← h, zero_add]
    cases emitRet w (List.replicate (width - (t.length : Int)).toNat padchar) o
        ((width - (t.length : Int)).toNat : Int) with
    | error e => rfl
    | ok r =>
      simp only [hmin]
      cases strLoop w (t ++ 0 :: rest) r.1 r.2 with
      | error e => rfl
      | ok r2 => rfl
  · simp only [if_neg hleft, hk]
    have h := str_then_emitRet w o (List.replicate (width - (t.length : Int)).toNat padchar) t
      rest padchar (by rw [List.length_replicate]) ht (by omega)
    rw [List.length_replicate] at h
    exact h

theorem digits_length_le_of_lt_pow {b n k : Nat} (hb : 2 ≤ b) (hn : n < b ^ k) :
    (Nat.digits b n).length ≤ k := by
  by_cases h0 : n = 0
  · subst h0
    simp
  · rw [Nat.digits_len b n (by omega) h0]
    have := Nat.log_lt_of_lt_pow h0 hn
    omega

theorem digitsLoop_eq (b : Nat) (letbase : Int) (hb : 2 ≤ b) (hb2 : b ≤ 2 ^ 31) :
    ∀ (room u : Nat) (s : List Nat), (Nat.digits b u).length ≤ room →
      digitsLoop b letbase room u s = .ok (digitsText b letbase u ++ s) := by
  intro room
  induction room with
  | zero =>
    intro u s h
    have hu : u = 0 := by
      by_contra hne
      have := Nat.digits_len b u (by omega) hne
      omega
    subst hu
    simp [digitsLoop, digitsText]
  | succ room ih =>
    intro u s h
    by_cases hu : u = 0
    · subst hu
      simp [digitsLoop, digitsText]
    · have hd : Nat.digits b u = u % b :: Nat.digits b (u / b) :=
        Nat.digits_def' (by omega) (Nat.pos_of_ne_zero hu)
      have hlt : u % b < b := Nat.mod_lt u (by omega)
      have hwr : wrapS32 ((u % b : Nat) : Int) = ((u % b : Nat) : Int) :=
        wrapS32_of_range (by omega) (by omega)
      rw [digitsLoop, if_neg hu, if_neg (by omega)]
      simp only [hwr]
      rw [ih (u / b) _ (by rw [hd] at h; simpa using h)]
      simp [digitsText, hd, xdigit]

theorem xdigit_ne_zero (letbase : Int) (hl : letbase = 97 ∨ letbase = 65) (t : Nat)
    (ht : t < 16) : xdigit letbase t ≠ 0 := by
  unfold xdigit toU8i wrapS32
  rcases hl with h | h <;> subst h <;> split <;> omega

theorem digitsText_ne_zero (b : Nat) (hb : 2 ≤ b) (hb2 : b ≤ 16) (letbase : Int)
    (hl : letbase = 97 ∨ letbase = 65) (u : Nat) :
    ∀ c ∈ digitsText b letbase u, c ≠ 0 := by
  intro c hc
  unfold digitsText at hc
  rw [List.mem_map] at hc
  obtain ⟨d, hd, rfl⟩ := hc
  exact xdigit_ne_zero letbase hl d
    (lt_of_lt_of_le (Nat.digits_lt_base (by omega) (List.mem_reverse.mp hd)) hb2)

theorem digitsText_length (b : Nat) (letbase : Int) (u : Nat) :
    (digitsText b letbase u).length = (Nat.digits b u).length := by
  simp [digitsText]

theorem digits_u32_length {b u : Nat} (hb : b = 10 ∨ b = 16) (hu : u < 2 ^ 32) :
    (Nat.digits b u).length ≤ 10 := by
  rcases hb with h | h <;> subst h
  · exact digits_length_le_of_lt_pow (by norm_num) (lt_of_lt_of_le hu (by norm_num))
  · exact digits_length_le_of_lt_pow (by norm_num) (lt_of_lt_of_le hu (by norm_num))

theorem xprintsText_length (t : List Nat) (width : Int) (pad : Nat) :
    ((xprintsText t width pad).length : Int) = max width t.length := by
  unfold xprintsText
  by_cases h : pad &&& PAD_RIGHT = 0
  · simp only [if_pos h, List.length_append, List.length_replicate]
    push_cast
    omega
  · simp only [if_neg h, List.length_append, List.length_replicate]
    push_cast
    omega

theorem toU32_lt (n : Int) : toU32 n < 2 ^ 32 := by
  unfold toU32
  omega

theorem xprinti_eq {σ : Type} (w : Writer σ) (o : Out σ) (i b sg width : Int) (pad : Nat)
    (letbase : Int) (hb : b = 10 ∨ b = 16)
    (hl : letbase = 97 ∨ letbase = 65) (hw1 : 0 ≤ width) (hw2 : width < 2 ^ 31) :
    xprinti w o i b sg width pad letbase
      = emitRet w (xprintiText i b sg width pad letbase) o
          ((xprintiText i b sg width pad letbase).length : Int) := by
  unfold xprinti xprintiText
  by_cases h0 : i = 0
  · rw [if_pos h0, if_pos h0]
    exact xprints_eq w o [48] [] width pad (by simp) (by norm_num) (by omega) hw2
  · rw [if_neg h0, if_neg h0]
    have hb' : toU32 b = 10 ∨ toU32 b = 16 := by
      unfold toU32
      omega
    have hb2 : 2 ≤ toU32 b := by omega
    have hb16 : toU32 b ≤ 16 := by omega
    have hloop : ∀ u : Nat, u < 2 ^ 32 →
        digitsLoop (toU32 b) letbase 11 u [0]
          = .ok (digitsText (toU32 b) letbase u ++ 0 :: []) := by
      intro u hu
      exact digitsLoop_eq (toU32 b) letbase hb2 (by omega) 11 u [0]
        (le_trans (digits_u32_length hb' hu) (by norm_num))
    have hbody : ∀ u : Nat, u < 2 ^ 32 →
        ((digitsText (toU32 b) letbase u).length : Int) ≤ 10 := by
      intro u hu
      rw [digitsText_length]
      exact_mod_cast digits_u32_length hb' hu
    have hnz := digitsText_ne_zero (toU32 b) hb2 hb16 letbase hl
    by_cases hneg : sg ≠ 0 ∧ b = 10 ∧ i < 0
    · have hu := toU32_lt (wrapS32 (-i))
      have hdec : decide (sg ≠ 0 ∧ b = 10 ∧ i < 0) = true := decide_eq_true hneg
      rw [if_pos hneg]
      simp only [hdec, if_true]
      rw [hloop _ hu]
      simp only
      by_cases hz : width ≠ 0 ∧ pad &&& PAD_ZERO ≠ 0
      · rw [if_pos hz, if_pos hz]
        simp only [emitRet, emitAll]
        cases xprintchar w o 45 with
        | error e => rfl
        | ok o1 =>
          simp only
          rw [xprints_eq w o1 _ [] _ pad (hnz _) (by have := hbody _ hu; omega)
            (by rw [wrapS32_of_range] <;> omega) (by rw [wrapS32_of_range] <;> omega)]
          simp only [emitRet]
          cases emitAll w _ o1 with
          | error e => rfl
          | ok o2 =>
            simp only [List.length_cons]
            have hlen := xprintsText_length
              (digitsText (toU32 b) letbase (toU32 (wrapS32 (-i)))) (wrapS32 (width - 1)) pad
            have hwr : wrapS32 (width - 1) = width - 1 := wrapS32_of_range (by omega) (by omega)
            have hbd := hbody _ hu
            rw [wrapS32_of_range (by omega) (by rw [hlen, hwr]; omega)]
            push_cast
            rw [add_comm]
      · rw [if_neg hz, if_neg hz]
        have hlt : (digitsText (toU32 b) letbase (toU32 (wrapS32 (-i))) ++ [0]).length < 12 := by
          have := hbody _ hu
          simp only [List.length_append, List.length_singleton]
          omega
        rw [if_pos hlt]
        have hnz' : ∀ c ∈ 45 :: digitsText (toU32 b) letbase (toU32 (wrapS32 (-i))), c ≠ 0 := by
          intro c hc
          rcases List.mem_cons.mp hc with h | h
          · omega
          · exact hnz _ c h
        exact xprints_eq w o (45 :: digitsText (toU32 b) letbase (toU32 (wrapS32 (-i)))) []
          width pad hnz' (by have := hbody _ hu; simp only [List.length_cons]; push_cast; omega)
          (by omega) hw2
    · have hu := toU32_lt i
      have hdec : decide (sg ≠ 0 ∧ b = 10 ∧ i < 0) = false := decide_eq_false hneg
      rw [if_neg hneg]
      simp only [hdec, Bool.false_eq_true, if_false]
      rw [hloop _ hu]
      exact xprints_eq w o _ [] width pad (hnz _) (by have := hbody _ hu; omega) (by omega) hw2

theorem foldl_dec_ge (l : List Nat) :
    ∀ acc : Nat, acc ≤ l.foldl (fun a d => a * 10 + d) acc := by
  induction l with
  | nil => intro acc; exact le_refl _
  | cons d l ih =>
    intro acc
    exact le_trans (by omega) (ih (acc * 10 + d))

theorem foldl_dec_digits (L : List Nat) :
    L.reverse.foldl (fun a d => a * 10 + d) 0 = Nat.ofDigits 10 L := by
  induction L with
  | nil => rfl
  | cons h t ih =>
    rw [List.reverse_cons, List.foldl_append, ih, Nat.ofDigits_cons]
    simp only [List.foldl_cons, List.foldl_nil]
    omega

theorem readWidth_digits (c : Nat) (rest : List Nat) (hc : ¬(48 ≤ c ∧ c ≤ 57)) :
    ∀ (l : List Nat) (acc : Nat), (∀ d ∈ l, d < 10) →
      l.foldl (fun a d => a * 10 + d) acc < 2 ^ 31 →
      readWidth (l.map (fun d => 48 + d) ++ c :: rest) (acc : Int)
        = .ok (c :: rest, ((l.foldl (fun a d => a * 10 + d) acc : Nat) : Int)) := by
  intro l
  induction l with
  | nil =>
    intro acc _ _
    simp only [List.map_nil, List.nil_append, readWidth, if_neg hc, List.foldl_nil]
  | cons d l ih =>
    intro acc hd hv
    have hd10 : d < 10 := hd d (by simp)
    have hge := foldl_dec_ge l (acc * 10 + d)
    simp only [List.foldl_cons] at hv
    have h1 : wrapS32 ((acc : Int) * 10) = (acc : Int) * 10 :=
      wrapS32_of_range (by omega) (by omega)
    have h2 : wrapS32 ((acc : Int) * 10 + (((48 + d : Nat) : Int) - 48))
        = ((acc * 10 + d : Nat) : Int) := by
      rw [wrapS32_of_range (by push_cast; omega) (by push_cast; omega)]
      push_cast
      ring
    simp only [List.map_cons, List.cons_append, readWidth, List.foldl_cons]
    rw [if_pos (by omega), h1, h2]
    exact ih (acc * 10 + d) (fun x hx => hd x (by simp [hx])) hv

theorem readWidth_decimal (width c : Nat) (rest : List Nat) (hw : width < 2 ^ 31)
    (hc : ¬(48 ≤ c ∧ c ≤ 57)) :
    readWidth (decimalText width ++ c :: rest) 0 = .ok (c :: rest, (width : Int)) := by
  have h := readWidth_digits c rest hc (Nat.digits 10 width).reverse 0
    (fun d hd => Nat.digits_lt_base (by norm_num) (List.mem_reverse.mp hd))
    (by rw [foldl_dec_digits, Nat.ofDigits_digits]; exact hw)
  rw [foldl_dec_digits, Nat.ofDigits_digits] at h
  exact h

theorem decimalText_head (width c : Nat) (rest : List Nat) (hc : c ≠ 48) :
    ∃ c1 rest1, decimalText width ++ c :: rest = c1 :: rest1 ∧ c1 ≠ 48 ∧
      (c1 = c ∨ (49 ≤ c1 ∧ c1 ≤ 57)) := by
  by_cases h0 : width = 0
  · subst h0
    exact ⟨c, rest, by simp [decimalText], hc, Or.inl rfl⟩
  · have hne : Nat.digits 10 width ≠ [] := fun h => h0 (Nat.digits_eq_nil_iff_eq_zero.mp h)
    have hlast := Nat.getLast_digit_ne_zero 10 h0
    have hlt : (Nat.digits 10 width).getLast hne < 10 :=
      Nat.digits_lt_base (by norm_num) (List.getLast_mem hne)
    have hrev : (Nat.digits 10 width).reverse
        = (Nat.digits 10 width).getLast hne :: (Nat.digits 10 width).dropLast.reverse := by
      conv_lhs => rw [← List.dropLast_append_getLast hne]
      simp
    refine ⟨48 + (Nat.digits 10 width).getLast hne,
      (Nat.digits 10 width).dropLast.reverse.map (fun d => 48 + d) ++ c :: rest, ?_, by omega,
      Or.inr ⟨by omega, by omega⟩⟩
    unfold decimalText
    rw [hrev]
    rfl

theorem skipZeros_replicate (c1 : Nat) (rest1 : List Nat) (hc : c1 ≠ 48) :
    ∀ (zeros pad : Nat),
      skipZeros (List.replicate zeros 48 ++ c1 :: rest1) pad
        = .ok (c1 :: rest1, if zeros > 0 then pad ||| PAD_ZERO else pad) := by
  intro zeros
  induction zeros with
  | zero =>
    intro pad
    simp [skipZeros, hc]
  | succ k ih =>
    intro pad
    simp only [List.replicate_succ, List.cons_append, skipZeros, if_true, List.append_eq]
    rw [ih]
    have : (pad ||| PAD_ZERO) ||| PAD_ZERO = pad ||| PAD_ZERO := by
      rw [Nat.lor_assoc]
      rfl
    by_cases hk : k > 0
    · simp [hk, this]
    · simp [hk]

theorem emitRet_lift {σ : Type} (w : Writer σ) (o : Out σ) (cs : List Nat) (n : Int)
    (args : List Arg) :
    (match emitRet w cs o n with
      | .error e => (.error e : Except Err (Out σ × Int × List Arg))
      | .ok (o1, m) => .ok (o1, m, args))
      = match emitAll w cs o with
        | .error e => .error e
        | .ok o1 => .ok (o1, n, args) := by
  unfold emitRet
  cases emitAll w cs o with
  | error e => rfl
  | ok o1 => rfl

theorem directive_eq {σ : Type} (w : Writer σ) (o : Out σ) (conv : Conv) (hwf : conv.wf)
    (width : Int) (pad : Nat) (hw1 : 0 ≤ width) (hw2 : width < 2 ^ 31) (args : List Arg) :
    directive w o conv.char width pad (conv.arg :: args)
      = match emitAll w (conv.out width pad) o with
        | .error e => .error e
        | .ok o1 => .ok (o1, ((conv.out width pad).length : Int), args) := by
  cases conv with
  | s t rest =>
    obtain ⟨ht, hl⟩ := hwf
    simp only [directive, Conv.char, Conv.arg, Conv.out, if_true]
    rw [xprints_eq w o t rest width pad ht (by exact_mod_cast hl) (by omega) hw2]
    exact emitRet_lift w o _ _ args
  | snull =>
    simp only [directive, Conv.char, Conv.arg, Conv.out, if_true]
    have h := xprints_eq w o [40, 110, 117, 108, 108, 41] [] width pad (by decide)
      (by norm_num) (by omega) hw2
    simp only [List.cons_append, List.nil_append] at h
    rw [h]
    exact emitRet_lift w o _ _ args
  | d i =>
    simp only [directive, Conv.char, Conv.arg, Conv.out]
    rw [if_neg (by decide), if_pos (by decide), if_pos (by decide)]
    rw [xprinti_eq w o i 10 1 width pad 97 (Or.inl rfl) (Or.inl rfl) hw1 hw2]
    exact emitRet_lift w o _ _ args
  | x i =>
    simp only [directive, Conv.char, Conv.arg, Conv.out]
    rw [if_neg (by decide), if_pos (by decide), if_neg (by decide), if_pos (by decide)]
    rw [xprinti_eq w o i 16 0 width pad 97 (Or.inr rfl) (Or.inl rfl) hw1 hw2]
    exact emitRet_lift w o _ _ args
  | X i =>
    simp only [directive, Conv.char, Conv.arg, Conv.out]
    rw [if_neg (by decide), if_pos (by decide), if_neg (by decide), if_neg (by decide),
      if_pos (by decide)]
    rw [xprinti_eq w o i 16 0 width pad 65 (Or.inr rfl) (Or.inr rfl) hw1 hw2]
    exact emitRet_lift w o _ _ args
  | u i =>
    simp only [directive, Conv.char, Conv.arg, Conv.out]
    rw [if_neg (by decide), if_pos (by decide), if_neg (by decide), if_neg (by decide),
      if_neg (by decide)]
    rw [xprinti_eq w o i 10 0 width pad 97 (Or.inl rfl) (Or.inl rfl) hw1 hw2]
    exact emitRet_lift w o _ _ args
  | c i =>
    simp only [directive, Conv.char, Conv.arg, Conv.out]
    rw [if_neg (by decide), if_neg (by decide), if_pos (by decide)]
    by_cases hz : toU8i i = 0
    · rw [if_pos hz, hz]
      have h := xprints_eq w o [] [0] width pad (by simp) (by norm_num) (by omega) hw2
      simp only [List.nil_append] at h
      rw [h]
      exact emitRet_lift w o _ _ args
    · rw [if_neg hz]
      have h := xprints_eq w o [toU8i i] [] width pad (by simpa using hz) (by norm_num)
        (by omega) hw2
      simp only [List.cons_append, List.nil_append] at h
      rw [h]
      exact emitRet_lift w o _ _ args

theorem conv_char_cases (conv : Conv) :
    conv.char = 115 ∨ conv.char = 100 ∨ conv.char = 120 ∨ conv.char = 88 ∨ conv.char = 117 ∨
      conv.char = 99 := by
  cases conv <;> simp [Conv.char]

theorem xprintLoop_dir_step {σ : Type} (w : Writer σ) (fuel : Nat) (o : Out σ)
    (args : List Arg) (pc : Int) (c1 : Nat) (rest1 f2 : List Nat) (pad : Nat) (width : Int)
    (d : Nat) (rest3 : List Nat) (h0 : c1 ≠ 0) (h37 : c1 ≠ 37)
    (hs : skipZeros (if c1 = 45 then rest1 else c1 :: rest1) (if c1 = 45 then PAD_RIGHT else 0)
      = .ok (f2, pad))
    (hr : readWidth f2 0 = .ok (d :: rest3, width)) :
    xprintLoop w (fuel + 1) o (37 :: c1 :: rest1) args pc
      = match directive w o d width pad args with
        | .error e => .error e
        | .ok (o1, n, args1) => xprintLoop w fuel o1 rest3 args1 (wrapS32 (pc + n)) := by
  rw [xprintLoop]
  simp only [if_neg (show (37 : Nat) ≠ 0 by decide), if_true, if_neg h0, if_neg h37]
  by_cases h45 : c1 = 45
  · simp only [if_pos h45] at hs ⊢
    simp only [hs, hr]
  · simp only [if_neg h45] at hs ⊢
    simp only [hs, hr]

theorem xprintLoop_item {σ : Type} (w : Writer σ) (it : Item) (hwf : it.wf) (fuel : Nat)
    (o : Out σ) (fmt : List Nat) (args : List Arg) (pc : Int) :
    xprintLoop w (fuel + 1) o (it.format ++ fmt) (it.args ++ args) pc
      = match emitAll w it.out o with
        | .error e => .error e
        | .ok o1 => xprintLoop w fuel o1 fmt args (wrapS32 (pc + (it.out.length : Int))) := by
  cases it with
  | lit ch =>
    obtain ⟨h0, h37⟩ := hwf
    simp only [Item.format, Item.args, Item.out, List.cons_append, List.nil_append, xprintLoop,
      if_neg h0, if_neg h37, emitAll, List.length_singleton, Nat.cast_one]
    cases xprintchar w o ch with
    | error e => rfl
    | ok o1 => rfl
  | percent =>
    simp only [Item.format, Item.args, Item.out, List.cons_append, List.nil_append, xprintLoop,
      if_neg (show (37 : Nat) ≠ 0 by decide), if_true, emitAll, List.length_singleton,
      Nat.cast_one]
    cases xprintchar w o 37 with
    | error e => rfl
    | ok o1 => rfl
  | dir left zeros width conv =>
    obtain ⟨hw, hconv⟩ := hwf
    have hch := conv_char_cases conv
    obtain ⟨x1, xrest, hX, hx48, hxc⟩ :=
      decimalText_head width conv.char fmt (by omega)
    have hread := readWidth_decimal width conv.char fmt hw (by omega)
    have hfmt : (Item.dir left zeros width conv).format ++ fmt
        = 37 :: ((if left then [45] else []) ++ (List.replicate zeros 48 ++ x1 :: xrest)) := by
      simp only [Item.format, List.cons_append, List.append_assoc, List.nil_append,
        List.singleton_append, hX]
    have hdir := directive_eq w o conv hconv (width : Int) (padOf left zeros) (by omega)
      (by exact_mod_cast hw) args
    rw [hX] at hread
    rw [hfmt]
    simp only [Item.args, Item.out, List.singleton_append]
    cases left with
    | true =>
      have hs : skipZeros (List.replicate zeros 48 ++ x1 :: xrest) PAD_RIGHT
          = .ok (x1 :: xrest, padOf true zeros) := by
        rw [skipZeros_replicate x1 xrest hx48]
        rfl
      simp only [if_true, List.singleton_append]
      rw [xprintLoop_dir_step w fuel o _ pc 45 _ _ _ _ _ _ (by decide) (by decide)
        (by simpa using hs) hread, hdir]
      cases emitAll w (conv.out (width : Int) (padOf true zeros)) o with
      | error e => rfl
      | ok o1 => rfl
    | false =>
      have hs : skipZeros (List.replicate zeros 48 ++ x1 :: xrest) 0
          = .ok (x1 :: xrest, padOf false zeros) := by
        rw [skipZeros_replicate x1 xrest hx48]
        rfl
      obtain ⟨c1, rest1, hbody, h0, h37, h45⟩ : ∃ c1 rest1,
          List.replicate zeros 48 ++ x1 :: xrest = c1 :: rest1 ∧ c1 ≠ 0 ∧ c1 ≠ 37 ∧ c1 ≠ 45 := by
        cases zeros with
        | zero => exact ⟨x1, xrest, rfl, by omega, by omega, by omega⟩
        | succ k => exact ⟨48, List.replicate k 48 ++ x1 :: xrest,
            by rw [List.replicate_succ, List.cons_append], by decide, by decide, by decide⟩
      simp only [Bool.false_eq_true, if_false, List.nil_append]
      rw [hbody] at hs ⊢
      rw [xprintLoop_dir_step w fuel o _ pc c1 rest1 _ _ _ _ _ h0 h37
        (by simpa [h45] using hs) hread, hdir]
      cases emitAll w (conv.out (width : Int) (padOf false zeros)) o with
      | error e => rfl
      | ok o1 => rfl

theorem wrapS32_add_left (a b : Int) : wrapS32 (wrapS32 a + b) = wrapS32 (a + b) := by
  unfold wrapS32
  omega

theorem xprintLoop_items {σ : Type} (w : Writer σ) :
    ∀ (items : List Item), (∀ it ∈ items, it.wf) →
      ∀ (fuel : Nat) (o : Out σ) (tail : List Nat) (args : List Arg) (pc : Int),
        xprintLoop w (items.length + fuel) o (formatOf items ++ tail) (argsOf items ++ args)
            (wrapS32 pc)
          = match emitAll w (outOf items) o with
            | .error e => .error e
            | .ok o1 => xprintLoop w fuel o1 tail args
                (wrapS32 (pc + ((outOf items).length : Int))) := by
  intro items
  induction items with
  | nil =>
    intro _ fuel o tail args pc
    simp [formatOf, argsOf, outOf, emitAll]
  | cons it its ih =>
    intro hwf fuel o tail args pc
    have hfuel : (it :: its).length + fuel = (its.length + fuel) + 1 := by
      simp only [List.length_cons]
      omega
    rw [hfuel]
    simp only [formatOf, argsOf, outOf, List.append_assoc]
    rw [xprintLoop_item w it (hwf it (by simp)), emitAll_append]
    cases emitAll w it.out o with
    | error e => rfl
    | ok o1 =>
      simp only
      rw [wrapS32_add_left, ih (fun x hx => hwf x (by simp [hx]))]
      simp only [List.length_append]
      push_cast
      rw [add_assoc]

theorem xprintLoop_tail {σ : Type} (w : Writer σ) (fuel : Nat) (o : Out σ) (lone : Bool)
    (junk : List Nat) (args : List Arg) (pc : Int) :
    xprintLoop w (fuel + 1) o ((if lone then [37] else []) ++ 0 :: junk) args pc
      = .ok (o, pc) := by
  cases lone <;> simp [xprintLoop]

theorem formatOf_length (items : List Item) : items.length ≤ (formatOf items).length := by
  induction items with
  | nil => simp
  | cons it its ih =>
    have h1 : 1 ≤ it.format.length := by
      cases it <;> simp [Item.format]
    simp only [formatOf, List.length_cons, List.length_append]
    omega

theorem xprint_items {σ : Type} (w : Writer σ) (items : List Item)
    (hwf : ∀ it ∈ items, it.wf) (o : Out σ) (lone : Bool) (junk : List Nat)
    (extra : List Arg) :
    xprint w o (formatOf items ++ ((if lone then [37] else []) ++ 0 :: junk))
        (argsOf items ++ extra)
      = match emitAll w (outOf items) o with
        | .error e => .error e
        | .ok o1 =>
          match o1.pos with
          | some p =>
            if p < o1.mem.length then
              .ok ({ o1 with mem := o1.mem.set p 0 }, wrapS32 ((outOf items).length : Int))
            else .error .bufferOverflow
          | none => .ok (o1, wrapS32 ((outOf items).length : Int)) := by
  obtain ⟨k, hk⟩ : ∃ k : Nat,
      (formatOf items ++ ((if lone then [37] else []) ++ 0 :: junk)).length + 1
        = items.length + (k + 1) := by
    have := formatOf_length items
    refine ⟨(formatOf items ++ ((if lone then [37] else []) ++ 0 :: junk)).length
      - items.length, ?_⟩
    simp only [List.length_append] at this ⊢
    omega
  unfold xprint
  rw [hk]
  have h := xprintLoop_items w items hwf (k + 1) o
    ((if lone then [37] else []) ++ 0 :: junk) extra 0
  have hz : wrapS32 0 = 0 := rfl
  rw [hz, zero_add] at h
  rw [h]
  cases emitAll w (outOf items) o with
  | error e => rfl
  | ok o1 =>
    simp only
    rw [xprintLoop_tail]

theorem emitAll_rec (mem : List Nat) :
    ∀ (cs pre : List Nat),
      emitAll recWrite cs { sink := pre, mem := mem, pos := none }
        = .ok { sink := pre ++ cs.map toU8, mem := mem, pos := none } := by
  intro cs
  induction cs with
  | nil => intro pre; simp [emitAll]
  | cons c cs ih =>
    intro pre
    simp only [emitAll, xprintchar, recWrite]
    rw [ih]
    simp

theorem emitAll_buf {σ : Type} (w : Writer σ) (st : σ) :
    ∀ (cs a b : List Nat), cs.length ≤ b.length →
      emitAll w cs { sink := st, mem := a ++ b, pos := some a.length }
        = .ok { sink := st, mem := a ++ (cs.map toU8 ++ b.drop cs.length),
                pos := some (a.length + cs.length) } := by
  intro cs
  induction cs with
  | nil => intro a b _; simp [emitAll]
  | cons c cs ih =>
    intro a b hb
    cases b with
    | nil => simp at hb
    | cons x b =>
      have hlt : a.length < (a ++ x :: b).length := by simp
      have hset : (a ++ x :: b).set a.length (toU8 c) = (a ++ [toU8 c]) ++ b := by
        rw [List.set_append_right _ _ (le_refl _)]
        simp
      have hpos : a.length + 1 = (a ++ [toU8 c]).length := by simp
      simp only [emitAll, xprintchar, if_pos hlt, hset]
      rw [hpos, ih (a ++ [toU8 c]) b (by simpa using hb)]
      simp only [List.length_append, List.length_singleton, List.length_cons, List.map_cons,
        List.drop_succ_cons, List.append_assoc, List.singleton_append, List.cons_append,
        Nat.add_assoc, Nat.add_comm 1 cs.length, List.nil_append, List.length_nil,
        Nat.zero_add]

theorem printf_items (items : List Item) (hwf : ∀ it ∈ items, it.wf) (lone : Bool)
    (junk : List Nat) (extra : List Arg) (pre : List Nat) :
    printf recWrite pre (formatOf items ++ ((if lone then [37] else []) ++ 0 :: junk))
        (argsOf items ++ extra)
      = .ok (pre ++ (outOf items).map toU8, wrapS32 ((outOf items).length : Int)) := by
  unfold printf
  rw [xprint_items recWrite items hwf _ lone junk extra, emitAll_rec]

theorem sprintf_items {σ : Type} (w : Writer σ) (st : σ) (items : List Item)
    (hwf : ∀ it ∈ items, it.wf) (lone : Bool) (junk : List Nat) (extra : List Arg)
    (out : List Nat) (hroom : (outOf items).length < out.length) :
    sprintf w st out (formatOf items ++ ((if lone then [37] else []) ++ 0 :: junk))
        (argsOf items ++ extra)
      = .ok ((outOf items).map toU8 ++ 0 :: out.drop ((outOf items).length + 1),
          wrapS32 ((outOf items).length : Int)) := by
  unfold sprintf
  rw [xprint_items w items hwf _ lone junk extra]
  have h := emitAll_buf w st (outOf items) [] out (le_of_lt hroom)
  simp only [List.nil_append, List.length_nil, Nat.zero_add] at h
  rw [h]
  obtain ⟨x, rest, hd⟩ : ∃ x rest, out.drop (outOf items).length = x :: rest := by
    cases hdr : out.drop (outOf items).length with
    | nil =>
      have := congrArg List.length hdr
      simp only [List.length_drop, List.length_nil] at this
      omega
    | cons x rest => exact ⟨x, rest, rfl⟩
  have hrest : out.drop ((outOf items).length + 1) = rest := by
    rw [← List.drop_drop, hd]
    rfl
  have hlt : (outOf items).length
      < (List.map toU8 (outOf items) ++ List.drop (outOf items).length out).length := by
    rw [hd]
    simp
  simp only [if_pos hlt]
  rw [hd, hrest]
  have hset : (List.map toU8 (outOf items) ++ x :: rest).set (outOf items).length 0
      = List.map toU8 (outOf items) ++ 0 :: rest := by
    rw [List.set_append_right _ _ (by simp)]
    simp
  rw [hset]

theorem map_toU8_id (l : List Nat) (h : ∀ c ∈ l, c < 256) : l.map toU8 = l := by
  induction l with
  | nil => rfl
  | cons c l ih =>
    rw [List.map_cons, toU8_of_lt (h c (by simp)), ih (fun x hx => h x (by simp [hx]))]

theorem digitsText_dec (u : Nat) : digitsText 10 97 u = decimalText u := by
  unfold digitsText decimalText
  apply List.map_congr_left
  intro d hd
  have hlt : d < 10 := Nat.digits_lt_base (by norm_num) (List.mem_reverse.mp hd)
  unfold xdigit toU8i
  rw [if_neg (by omega)]
  omega

theorem decimalText_lt (u : Nat) : ∀ c ∈ decimalText u, 48 ≤ c ∧ c ≤ 57 := by
  intro c hc
  unfold decimalText at hc
  rw [List.mem_map] at hc
  obtain ⟨d, hd, rfl⟩ := hc
  have hlt : d < 10 := Nat.digits_lt_base (by norm_num) (List.mem_reverse.mp hd)
  omega

theorem xprintiText_dec_unpadded (i width : Int) (pad : Nat) (hpad : pad &&& PAD_ZERO = 0)
    (hi1 : -2 ^ 31 ≤ i) (hi2 : i < 2 ^ 31) :
    xprintiText i 10 1 width pad 97 = xprintsText (intText i) width pad := by
  have h10 : toU32 10 = 10 := rfl
  unfold xprintiText intText
  by_cases h0 : i = 0
  · rw [if_pos h0, if_pos h0]
  · rw [if_neg h0, if_neg h0, h10]
    by_cases hneg : i < 0
    · have hu : toU32 (wrapS32 (-i)) = i.natAbs := by
        unfold toU32 wrapS32
        omega
      rw [if_pos ⟨by decide, rfl, hneg⟩, if_neg (fun h => h.2 hpad), if_pos hneg, hu,
        digitsText_dec]
    · have hu : toU32 i = i.natAbs := by
        unfold toU32
        omega
      rw [if_neg (fun h => hneg h.2.2), if_neg hneg, hu, digitsText_dec]

theorem xprintiText_dec_zero_neg (i : Int) (wd : Nat) (hi1 : -2 ^ 31 ≤ i) (hi2 : i < 0)
    (hw1 : 1 ≤ wd) (hw2 : wd < 2 ^ 31) :
    xprintiText i 10 1 (wd : Int) (padOf false 1) 97
      = zeroPadNeg wd (decimalText i.natAbs) := by
  have h10 : toU32 10 = 10 := rfl
  have hpad : padOf false 1 = 2 := rfl
  have hu : toU32 (wrapS32 (-i)) = i.natAbs := by
    unfold toU32 wrapS32
    omega
  unfold xprintiText
  rw [if_neg (by omega), if_pos ⟨by decide, rfl, hi2⟩, hpad,
    if_pos ⟨by omega, by decide⟩, h10, hu, digitsText_dec,
    wrapS32_of_range (by omega) (by omega)]
  unfold xprintsText zeroPadNeg
  have hz : (2 &&& PAD_ZERO ≠ 0) := by decide
  have hr : (2 &&& PAD_RIGHT = 0) := by decide
  have hk : ((wd : Int) - 1 - ((decimalText i.natAbs).length : Int)).toNat
      = wd - 1 - (decimalText i.natAbs).length := by omega
  simp only [if_pos hz, if_pos hr, hk]

theorem xprintsText_space (t : List Nat) (wd : Nat) (left : Bool) :
    xprintsText t (wd : Int) (padOf left 0) = spacePad left wd t := by
  have hk : ((wd : Int) - (t.length : Int)).toNat = wd - t.length := by omega
  unfold xprintsText spacePad
  cases left
  · have hz : ¬ (padOf false 0 &&& PAD_ZERO ≠ 0) := by decide
    have hr : padOf false 0 &&& PAD_RIGHT = 0 := by decide
    simp only [if_neg hz, if_pos hr, hk, Bool.false_eq_true, if_false]
  · have hz : ¬ (padOf true 0 &&& PAD_ZERO ≠ 0) := by decide
    have hr : ¬ (padOf true 0 &&& PAD_RIGHT = 0) := by decide
    simp only [if_neg hz, if_neg hr, hk, if_true]

theorem single_dir {σ : Type} (w : Writer σ) (st : σ) (left : Bool) (wd : Nat) (conv : Conv)
    (hw : wd < 2 ^ 31) (hconv : conv.wf) (junk pre out T : List Nat)
    (hT : conv.out (wd : Int) (padOf left 0) = T) (hb : ∀ c ∈ T, c < 256)
    (hl : T.length < 2 ^ 31) :
    printf recWrite pre
        ([37] ++ (if left then [45] else []) ++ decimalText wd ++ [conv.char, 0] ++ junk)
        [conv.arg] = .ok (pre ++ T, (T.length : Int)) ∧
    (T.length < out.length →
      sprintf w st out
          ([37] ++ (if left then [45] else []) ++ decimalText wd ++ [conv.char, 0] ++ junk)
          [conv.arg] = .ok (T ++ 0 :: out.drop (T.length + 1), (T.length : Int))) := by
  have hwf : ∀ it ∈ [Item.dir left 0 wd conv], it.wf := by
    intro it hit
    rw [List.mem_singleton] at hit
    subst hit
    exact ⟨hw, hconv⟩
  have hfmt : [37] ++ (if left then [45] else []) ++ decimalText wd ++ [conv.char, 0] ++ junk
      = formatOf [Item.dir left 0 wd conv]
        ++ ((if false = true then [37] else []) ++ 0 :: junk) := by
    simp [formatOf, Item.format]
  have hargs : [conv.arg] = argsOf [Item.dir left 0 wd conv] ++ [] := rfl
  have hout : outOf [Item.dir left 0 wd conv] = T := by
    simp only [outOf, Item.out, List.append_nil]
    exact hT
  have hwrap : wrapS32 (T.length : Int) = (T.length : Int) :=
    wrapS32_of_range (by omega) (by exact_mod_cast hl)
  refine ⟨?_, ?_⟩
  · rw [hfmt, hargs, printf_items _ hwf, hout, map_toU8_id T hb, hwrap]
  · intro hroom
    rw [hfmt, hargs, sprintf_items w st _ hwf _ _ _ out (by rw [hout]; exact hroom), hout,
      map_toU8_id T hb, hwrap]

theorem intText_props (i : Int) (hi1 : -2 ^ 31 ≤ i) (hi2 : i < 2 ^ 31) :
    (∀ c ∈ intText i, c ≠ 0 ∧ c < 256) ∧ (intText i).length ≤ 11 := by
  have hdl : (decimalText i.natAbs).length ≤ 10 := by
    simp only [decimalText, List.length_map, List.length_reverse]
    exact digits_length_le_of_lt_pow (by norm_num)
      (lt_of_le_of_lt (show i.natAbs ≤ 2 ^ 31 by omega) (by norm_num))
  have hd := decimalText_lt i.natAbs
  unfold intText
  split
  · exact ⟨by simp, by simp⟩
  · split
    · refine ⟨?_, by simp only [List.length_cons]; omega⟩
      intro c hc
      rcases List.mem_cons.mp hc with h | h
      · omega
      · have := hd c h
        omega
    · refine ⟨?_, by omega⟩
      intro c hc
      have := hd c hc
      omega

/-! ## Lemmas on directives with an unknown conversion -/

theorem directive_unknown {σ : Type} (w : Writer σ) (o : Out σ) (c : Nat) (width : Int)
    (pad : Nat) (args : List Arg) (h1 : c ≠ 115) (h2 : c ≠ 100) (h3 : c ≠ 120) (h4 : c ≠ 88)
    (h5 : c ≠ 117) (h6 : c ≠ 99) :
    directive w o c width pad args = .ok (o, 0, args) := by
  unfold directive
  rw [if_neg h1, if_neg (by omega), if_neg h6]

theorem xprintLoop_unknown {σ : Type} (w : Writer σ) (left : Bool) (zeros width c : Nat)
    (hw : width < 2 ^ 31) (hc : UnknownConv left zeros width c) (fuel : Nat) (o : Out σ)
    (fmt : List Nat) (args : List Arg) (pc : Int) :
    xprintLoop w (fuel + 1) o (directiveText left zeros width c ++ fmt) args (wrapS32 pc)
      = xprintLoop w fuel o fmt args (wrapS32 pc) := by
  obtain ⟨c0, c1, c2, c3, c4, c5, c6, cdig, cfirst⟩ := hc
  obtain ⟨x1, xrest, hX, hx48, hxc⟩ := decimalText_head width c fmt (by omega)
  have hread := readWidth_decimal width c fmt hw cdig
  have hfmt : directiveText left zeros width c ++ fmt
      = 37 :: ((if left then [45] else []) ++ (List.replicate zeros 48 ++ x1 :: xrest)) := by
    simp only [directiveText, List.cons_append, List.append_assoc, List.nil_append,
      List.singleton_append, hX]
  have hdir : ∀ pad : Nat, directive w o c (width : Int) pad args = .ok (o, 0, args) :=
    fun pad => directive_unknown w o c _ pad args c1 c2 c3 c4 c5 c6
  have hpc : wrapS32 (wrapS32 pc + 0) = wrapS32 pc := by
    rw [wrapS32_add_left, add_zero]
  rw [hX] at hread
  rw [hfmt]
  cases left with
  | true =>
    have hs : skipZeros (List.replicate zeros 48 ++ x1 :: xrest) PAD_RIGHT
        = .ok (x1 :: xrest, padOf true zeros) := by
      rw [skipZeros_replicate x1 xrest hx48]
      rfl
    simp only [if_true, List.singleton_append]
    rw [xprintLoop_dir_step w fuel o _ _ 45 _ _ _ _ _ _ (by decide) (by decide)
      (by simpa using hs) hread, hdir]
    simp only [hpc]
  | false =>
    have hs : skipZeros (List.replicate zeros 48 ++ x1 :: xrest) 0
        = .ok (x1 :: xrest, padOf false zeros) := by
      rw [skipZeros_replicate x1 xrest hx48]
      rfl
    obtain ⟨y1, yrest, hbody, h0, h37, h45⟩ : ∃ y1 yrest,
        List.replicate zeros 48 ++ x1 :: xrest = y1 :: yrest ∧ y1 ≠ 0 ∧ y1 ≠ 37 ∧ y1 ≠ 45 := by
      cases zeros with
      | zero =>
        rcases hxc with hxc | hxc
        · by_cases hw0 : width = 0
          · have := cfirst ⟨rfl, rfl, hw0⟩
            exact ⟨x1, xrest, rfl, by omega, by omega, by omega⟩
          · exfalso
            have hne : Nat.digits 10 width ≠ [] :=
              fun h => hw0 (Nat.digits_eq_nil_iff_eq_zero.mp h)
            have hlast := Nat.getLast_digit_ne_zero 10 hw0
            have hlt : (Nat.digits 10 width).getLast hne < 10 :=
              Nat.digits_lt_base (by norm_num) (List.getLast_mem hne)
            have hrev : (Nat.digits 10 width).reverse
                = (Nat.digits 10 width).getLast hne
                  :: (Nat.digits 10 width).dropLast.reverse := by
              conv_lhs => rw [← List.dropLast_append_getLast hne]
              simp
            have hhead : decimalText width ++ c :: fmt
                = (48 + (Nat.digits 10 width).getLast hne)
                  :: ((Nat.digits 10 width).dropLast.reverse.map (fun d => 48 + d)
                    ++ c :: fmt) := by
              unfold decimalText
              rw [hrev]
              rfl
            rw [hhead] at hX
            have hx1 := (List.cons.inj hX).1
            omega
        · exact ⟨x1, xrest, rfl, by omega, by omega, by omega⟩
      | succ k => exact ⟨48, List.replicate k 48 ++ x1 :: xrest,
          by rw [List.replicate_succ, List.cons_append], by decide, by decide, by decide⟩
    simp only [Bool.false_eq_true, if_false, List.nil_append]
    rw [hbody] at hs ⊢
    rw [xprintLoop_dir_step w fuel o _ _ y1 yrest _ _ _ _ _ h0 h37
      (by simpa [h45] using hs) hread, hdir]
    simp only [hpc]

theorem formatOf_append_length (items1 items2 : List Item) (mid tail : List Nat)
    (hmid : 1 ≤ mid.length) (htail : 1 ≤ tail.length) :
    ∃ k : Nat, (formatOf items1 ++ (mid ++ (formatOf items2 ++ tail))).length + 1
      = items1.length + (1 + (items2.length + (k + 1))) := by
  have h1 := formatOf_length items1
  have h2 := formatOf_length items2
  refine ⟨(formatOf items1 ++ (mid ++ (formatOf items2 ++ tail))).length
    - (items1.length + 1 + items2.length), ?_⟩
  simp only [List.length_append] at *
  omega

theorem printf_unknown (items1 items2 : List Item) (hwf1 : ∀ it ∈ items1, it.wf)
    (hwf2 : ∀ it ∈ items2, it.wf) (left : Bool) (zeros width c : Nat) (hw : width < 2 ^ 31)
    (hc : UnknownConv left zeros width c) (lone : Bool) (junk : List Nat) (extra : List Arg)
    (pre : List Nat) :
    printf recWrite pre
        (formatOf items1 ++ (directiveText left zeros width c
          ++ (formatOf items2 ++ ((if lone then [37] else []) ++ 0 :: junk))))
        (argsOf items1 ++ (argsOf items2 ++ extra))
      = .ok (pre ++ (outOf items1 ++ outOf items2).map toU8,
          wrapS32 ((outOf items1 ++ outOf items2).length : Int)) := by
  obtain ⟨k, hk⟩ := formatOf_append_length items1 items2 (directiveText left zeros width c)
    ((if lone then [37] else []) ++ 0 :: junk) (by simp [directiveText])
    (by cases lone <;> simp)
  unfold printf xprint
  rw [hk]
  have h1 := xprintLoop_items recWrite items1 hwf1 (1 + (items2.length + (k + 1)))
    { sink := pre, mem := [], pos := none }
    (directiveText left zeros width c
      ++ (formatOf items2 ++ ((if lone then [37] else []) ++ 0 :: junk)))
    (argsOf items2 ++ extra) 0
  have hz : wrapS32 0 = 0 := rfl
  rw [hz] at h1
  rw [h1, emitAll_rec]
  simp only [zero_add]
  rw [Nat.add_comm 1 (items2.length + (k + 1)), xprintLoop_unknown recWrite left zeros width c
    hw hc, xprintLoop_items recWrite items2 hwf2, emitAll_rec]
  simp only
  rw [xprintLoop_tail]
  simp only [List.map_append, List.append_assoc, List.length_append, Nat.cast_add]

theorem formatOf_append (a b : List Item) : formatOf (a ++ b) = formatOf a ++ formatOf b := by
  induction a with
  | nil => rfl
  | cons it a ih => simp [formatOf, ih]

theorem argsOf_append (a b : List Item) : argsOf (a ++ b) = argsOf a ++ argsOf b := by
  induction a with
  | nil => rfl
  | cons it a ih => simp [argsOf, ih]

theorem outOf_append (a b : List Item) : outOf (a ++ b) = outOf a ++ outOf b := by
  induction a with
  | nil => rfl
  | cons it a ih => simp [outOf, ih]

theorem printNumber_ok {σ : Type} (w : Writer σ) (st : σ) (n b : Nat) (hn : n < 2 ^ 64)
    (hb : 2 ≤ b) (hb2 : b ≤ 36) : ∃ r, printNumber w st n b = .ok r := by
  unfold printNumber
  by_cases h0 : n = 0
  · rw [if_pos h0]
    exact ⟨_, rfl⟩
  · rw [if_neg h0, digitLoop_eq b hb (by omega) 64 n [] (digits_length_le_64 hb hn)]
    exact ⟨_, rfl⟩

set_option maxRecDepth 100000 in
theorem digitLoop_all_ones :
    digitLoop 2 64 (2 ^ 64 - 1) [] = .ok (List.replicate 64 1) ∧
    digitLoop 2 63 (2 ^ 64 - 1) [] = .error .bufferOverflow :=
  ⟨by rfl, by rfl⟩

/-! ## The claims -/

/-- C1: round trip of unsigned printing. For every unsigned 64-bit `v` and every base
`b` with `2 ≤ b ≤ 36`, `printNumber(v, b)` and `print((unsigned long long)v, b)` return,
and the characters they hand to the sink, read as a base-`b` numeral with the digits
'0'-'9' and 'A'-'Z', give `v` back. -/
theorem C1_printNumber_roundtrip (v b : Nat) (hv : v < 2 ^ 64) (hb : 2 ≤ b) (hb2 : b ≤ 36)
    (pre : List Nat) :
    ∃ out : List Nat, ∃ n : Nat,
      printNumber recWrite pre v b = .ok (pre ++ out, n) ∧
      print_ull recWrite pre v (b : Int) = .ok (pre ++ out, n) ∧
      specParse b out = some v :=
  ⟨numeral b v, (numeral b v).length, printNumber_rec b v hb (by omega) hv pre,
    print_ull_rec b v hb hb2 hv pre, specParse_numeral b v hb hb2⟩

/-- C1 at `v = 255`, `b = 16`. -/
theorem C1_printNumber_roundtrip_witness :
    ∃ out : List Nat, ∃ n : Nat,
      printNumber recWrite [] 255 16 = .ok ([] ++ out, n) ∧
      print_ull recWrite [] 255 ((16 : Nat) : Int) = .ok ([] ++ out, n) ∧
      specParse 16 out = some 255 :=
  C1_printNumber_roundtrip 255 16 (by norm_num) (by norm_num) (by norm_num) []

/-- C2: canonical numeral. For every unsigned 64-bit `v` and base `b` in [2,36],
`printNumber(v, b)` hands the sink the characters of a non-empty digit list `ds`, most
significant digit first: every digit is below `b` and is written '0'+d below ten and
'A'+d-10 from ten on, the digits have value `v`, for `v ≠ 0` they are exactly the
base-`b` digits of `v` and the first one is not zero (the first character is not '0'),
and for `v = 0` the output is the single character "0". -/
theorem C2_printNumber_canonical (v b : Nat) (hv : v < 2 ^ 64) (hb : 2 ≤ b) (hb2 : b ≤ 36)
    (pre : List Nat) :
    ∃ ds : List Nat,
      printNumber recWrite pre v b = .ok (pre ++ ds.map digitChar, ds.length) ∧
      ds ≠ [] ∧
      (∀ d ∈ ds, d < b ∧ digitChar d = if d < 10 then 48 + d else 65 + (d - 10)) ∧
      Nat.ofDigits b ds.reverse = v ∧
      (v ≠ 0 → ds = (Nat.digits b v).reverse ∧ ds.head? ≠ some 0 ∧
        (ds.map digitChar).head? ≠ some 48) ∧
      (v = 0 → ds.map digitChar = [48]) := by
  have hrec := printNumber_rec b v hb (by omega) hv pre
  have hch : ∀ d : Nat, d < b → digitChar d = if d < 10 then 48 + d else 65 + (d - 10) := by
    intro d hd
    by_cases h10 : d < 10
    · rw [if_pos h10, digitChar_lt_ten h10]
    · rw [if_neg h10, digitChar_ge_ten (by omega) (by omega)]
      omega
  by_cases h0 : v = 0
  · subst h0
    refine ⟨[0], ?_, by simp, ?_, by simp, fun h => absurd rfl h, fun _ => rfl⟩
    · simpa [numeral] using hrec
    · intro d hd
      have hd0 : d = 0 := by simpa using hd
      subst hd0
      exact ⟨by omega, rfl⟩
  · have hne : Nat.digits b v ≠ [] := fun h => h0 (Nat.digits_eq_nil_iff_eq_zero.mp h)
    have hlast := Nat.getLast_digit_ne_zero b h0
    have hlastlt : (Nat.digits b v).getLast hne < b :=
      Nat.digits_lt_base (by omega) (List.getLast_mem hne)
    refine ⟨(Nat.digits b v).reverse, ?_, by simpa using hne, ?_, ?_, fun _ => ⟨rfl, ?_, ?_⟩,
      fun h => absurd h h0⟩
    · simpa [numeral, h0] using hrec
    · intro d hd
      have hlt : d < b := Nat.digits_lt_base (by omega) (List.mem_reverse.mp hd)
      exact ⟨hlt, hch d hlt⟩
    · rw [List.reverse_reverse, Nat.ofDigits_digits]
    · rw [List.head?_reverse, List.getLast?_eq_getLast _ hne]
      intro h
      exact hlast (Option.some.inj h)
    · rw [List.head?_map, List.head?_reverse, List.getLast?_eq_getLast _ hne, Option.map_some']
      intro h
      have h48 := Option.some.inj h
      rw [hch _ hlastlt] at h48
      split at h48 <;> omega

/-- C2 at `v = 255`, `b = 16`. -/
theorem C2_printNumber_canonical_witness :
    ∃ ds : List Nat,
      printNumber recWrite [] 255 16 = .ok ([] ++ ds.map digitChar, ds.length) ∧
      ds ≠ [] ∧
      (∀ d ∈ ds, d < 16 ∧ digitChar d = if d < 10 then 48 + d else 65 + (d - 10)) ∧
      Nat.ofDigits 16 ds.reverse = 255 ∧
      (255 ≠ 0 → ds = (Nat.digits 16 255).reverse ∧ ds.head? ≠ some 0 ∧
        (ds.map digitChar).head? ≠ some 48) ∧
      (255 = 0 → ds.map digitChar = [48]) :=
  C2_printNumber_canonical 255 16 (by norm_num) (by norm_num) (by norm_num) []

/-- C3: signed formatting. For every `v` with `1 ≤ v ≤ 2^63 - 1` and base `b` in [2,36],
`print((long long)(-v), b)` hands the sink the character '-' followed by exactly the
characters of `print((unsigned long long)v, b)`. -/
theorem C3_signed_is_minus_then_unsigned (v b : Nat) (hv1 : 1 ≤ v) (hv2 : v ≤ 2 ^ 63 - 1)
    (hb : 2 ≤ b) (hb2 : b ≤ 36) (pre : List Nat) :
    ∃ out : List Nat, ∃ n m : Nat,
      print_ull recWrite pre v (b : Int) = .ok (pre ++ out, n) ∧
      print_ll recWrite pre (-(v : Int)) (b : Int) = .ok (pre ++ 45 :: out, m) := by
  have hv : v < 2 ^ 63 := by omega
  refine ⟨numeral b v, (numeral b v).length, (numeral b v).length,
    print_ull_rec b v hb hb2 (by omega) pre, ?_⟩
  unfold print_ll
  rw [if_neg (natCast_ne_BYTE hb), if_pos (by omega), toU8i_natCast (by omega),
    toU64_wrapS64_neg_neg hv]
  have hp : (print_char recWrite pre 45).1 = pre ++ [45] := rfl
  rw [hp, printNumber_rec b v hb (by omega) (by omega)]
  simp

/-- C3 at `v = 5`, `b = 10`. -/
theorem C3_signed_is_minus_then_unsigned_witness :
    ∃ out : List Nat, ∃ n m : Nat,
      print_ull recWrite [] 5 ((10 : Nat) : Int) = .ok ([] ++ out, n) ∧
      print_ll recWrite [] (-((5 : Nat) : Int)) ((10 : Nat) : Int) = .ok ([] ++ 45 :: out, m) :=
  C3_signed_is_minus_then_unsigned 5 10 (by norm_num) (by norm_num) (by norm_num)
    (by norm_num) []

/-- C4: the count returned for a negative number leaves the sign out. On the recording
sink `print((long long)(-5), 10)` hands over the two bytes "-5" and returns 1: the
result of `print('-')` is dropped. -/
theorem C4_sign_not_counted :
    ∃ out : List Nat, ∃ c : Nat,
      print_ll recWrite [] (-5) 10 = .ok (out, c) ∧ out = [45, 53] ∧ c = 1 ∧
        c ≠ out.length :=
  ⟨[45, 53], 1, rfl, rfl, rfl, by decide⟩

/-- C5: `println` is `print` followed by CR LF. On the recording sink, for a signed 64-bit
integer or an unsigned 64-bit integer with a base in [2,36], for a character and for a
NUL-terminated string (short enough for its length plus two to be a `size_t`),
`print(x)` returns, and `println(x)` hands over the same bytes followed by '\r' and
'\n' and returns the count of `print(x)` plus 2. -/
theorem C5_println_is_print_then_crlf (pre : List Nat) :
    (∀ (n : Int) (b : Nat), -2 ^ 63 ≤ n → n < 2 ^ 63 → 2 ≤ b → b ≤ 36 →
      ∃ out : List Nat, ∃ c : Nat,
        print_ll recWrite pre n (b : Int) = .ok (pre ++ out, c) ∧
        println_ll recWrite pre n (b : Int) = .ok (pre ++ out ++ [13, 10], c + 2)) ∧
    (∀ (v b : Nat), v < 2 ^ 64 → 2 ≤ b → b ≤ 36 →
      ∃ out : List Nat, ∃ c : Nat,
        print_ull recWrite pre v (b : Int) = .ok (pre ++ out, c) ∧
        println_ull recWrite pre v (b : Int) = .ok (pre ++ out ++ [13, 10], c + 2)) ∧
    (∀ ch : Nat, ch < 256 →
      print_char recWrite pre ch = (pre ++ [ch], 1) ∧
      println_char recWrite pre ch = .ok (pre ++ [ch] ++ [13, 10], 1 + 2)) ∧
    (∀ t rest : List Nat, (∀ c ∈ t, c ≠ 0 ∧ c < 256) → t.length + 2 < 2 ^ 32 →
      print_str recWrite pre (t ++ 0 :: rest) = .ok (pre ++ t, t.length) ∧
      println_str recWrite pre (t ++ 0 :: rest) = .ok (pre ++ t ++ [13, 10], t.length + 2)) := by
  refine ⟨?_, ?_, ?_, ?_⟩
  · intro n b hn1 hn2 hb hb2
    have hp := print_ll_rec n b hn1 hn2 hb hb2 pre
    have hl := numeral_length_le b n.natAbs hb (by omega)
    refine ⟨_, _, hp, ?_⟩
    unfold println_ll
    rw [hp]
    exact thenLn_rec _ _ (by omega)
  · intro v b hv hb hb2
    have hp := print_ull_rec b v hb hb2 hv pre
    have hl := numeral_length_le b v hb hv
    refine ⟨_, _, hp, ?_⟩
    unfold println_ull
    rw [hp]
    exact thenLn_rec _ _ (by omega)
  · intro ch hch
    have hp : print_char recWrite pre ch = (pre ++ [ch], 1) := by
      simp [print_char, recWrite, toU8_of_lt hch]
    refine ⟨hp, ?_⟩
    unfold println_char
    rw [hp]
    exact thenLn_rec _ _ (by norm_num)
  · intro t rest ht hlen
    have hp : print_str recWrite pre (t ++ 0 :: rest) = .ok (pre ++ t, t.length) := by
      unfold print_str
      rw [write_str_rec t rest ht pre 0 (by omega)]
      simp
    refine ⟨hp, ?_⟩
    unfold println_str
    rw [hp]
    exact thenLn_rec _ _ hlen

/-- C5 at the signed value -5 in base 10. -/
theorem C5_println_is_print_then_crlf_witness :
    ∃ out : List Nat, ∃ c : Nat,
      print_ll recWrite [] (-5) ((10 : Nat) : Int) = .ok ([] ++ out, c) ∧
      println_ll recWrite [] (-5) ((10 : Nat) : Int) = .ok ([] ++ out ++ [13, 10], c + 2) :=
  (C5_println_is_print_then_crlf []).1 (-5) 10 (by norm_num) (by norm_num) (by norm_num)
    (by norm_num)

/-- C6: zero-padding a negative number puts the sign first. For every negative 32-bit
`i` and every field width `wd` with `1 ≤ wd < 2^31`, the format `%0<wd>d` applied to `i`
produces `zeroPadNeg`: '-', then `wd - 1 - k` characters '0' (none when that is
negative), then the `k` decimal digits of `|i|`; the length is `max wd (k + 1)`, it is
the count returned, `printf` hands this text to the sink and `sprintf` stores it,
NUL-terminated, in a buffer that has room for it. `sprintf("%05d", -3)` gives "-0003". -/
theorem C6_zero_pad_negative {σ : Type} (w : Writer σ) (st : σ) (i : Int) (wd : Nat)
    (hi1 : -2 ^ 31 ≤ i) (hi2 : i < 0) (hw1 : 1 ≤ wd) (hw2 : wd < 2 ^ 31)
    (junk pre out : List Nat) :
    (zeroPadNeg wd (decimalText i.natAbs)).length
      = max wd ((decimalText i.natAbs).length + 1) ∧
    printf recWrite pre ([37, 48] ++ decimalText wd ++ [100, 0] ++ junk) [Arg.int i]
      = .ok (pre ++ zeroPadNeg wd (decimalText i.natAbs),
          (max wd ((decimalText i.natAbs).length + 1) : Nat)) ∧
    (max wd ((decimalText i.natAbs).length + 1) < out.length →
      sprintf w st out ([37, 48] ++ decimalText wd ++ [100, 0] ++ junk) [Arg.int i]
        = .ok (zeroPadNeg wd (decimalText i.natAbs)
              ++ 0 :: out.drop (max wd ((decimalText i.natAbs).length + 1) + 1),
            (max wd ((decimalText i.natAbs).length + 1) : Nat))) ∧
    sprintf recWrite [] (List.replicate 6 0) [37, 48, 53, 100, 0] [Arg.int (-3)]
      = .ok ([45, 48, 48, 48, 51, 0], 5) := by
  have hwf : ∀ it ∈ [Item.dir false 1 wd (Conv.d i)], it.wf := by
    intro it hit
    rw [List.mem_singleton] at hit
    subst hit
    exact ⟨hw2, trivial⟩
  have hfmt : [37, 48] ++ decimalText wd ++ [100, 0] ++ junk
      = formatOf [Item.dir false 1 wd (Conv.d i)]
        ++ ((if false = true then [37] else []) ++ 0 :: junk) := by
    simp [formatOf, Item.format, Conv.char]
  have hargs : [Arg.int i] = argsOf [Item.dir false 1 wd (Conv.d i)] ++ [] := rfl
  have hout : outOf [Item.dir false 1 wd (Conv.d i)]
      = zeroPadNeg wd (decimalText i.natAbs) := by
    simp only [outOf, Item.out, Conv.out, List.append_nil]
    exact xprintiText_dec_zero_neg i wd hi1 hi2 hw1 hw2
  have hlen : (zeroPadNeg wd (decimalText i.natAbs)).length
      = max wd ((decimalText i.natAbs).length + 1) := by
    simp only [zeroPadNeg, List.length_cons, List.length_append, List.length_replicate]
    omega
  have hdl : (decimalText i.natAbs).length ≤ 10 := by
    simp only [decimalText, List.length_map, List.length_reverse]
    exact digits_length_le_of_lt_pow (by norm_num)
      (lt_of_le_of_lt (show i.natAbs ≤ 2 ^ 31 by omega) (by norm_num))
  have hbytes : (zeroPadNeg wd (decimalText i.natAbs)).map toU8
      = zeroPadNeg wd (decimalText i.natAbs) := by
    apply map_toU8_id
    intro c hc
    simp only [zeroPadNeg, List.mem_cons, List.mem_append, List.mem_replicate] at hc
    rcases hc with h | h | h
    · omega
    · omega
    · have := decimalText_lt _ c h
      omega
  have hwrap : wrapS32 ((zeroPadNeg wd (decimalText i.natAbs)).length : Int)
      = (max wd ((decimalText i.natAbs).length + 1) : Nat) := by
    rw [wrapS32_of_range (by omega) (by omega), hlen]
  refine ⟨hlen, ?_, ?_, rfl⟩
  · rw [hfmt, hargs, printf_items _ hwf, hout, hbytes, hwrap]
  · intro hroom
    rw [hfmt, hargs, sprintf_items w st _ hwf _ _ _ out (by rw [hout, hlen]; exact hroom),
      hout, hbytes, hwrap, hlen]

/-- C6 at `i = -3`, `wd = 5`. -/
theorem C6_zero_pad_negative_witness :
    (zeroPadNeg 5 (decimalText (-3 : Int).natAbs)).length
      = max 5 ((decimalText (-3 : Int).natAbs).length + 1) ∧
    printf recWrite [] ([37, 48] ++ decimalText 5 ++ [100, 0] ++ []) [Arg.int (-3)]
      = .ok ([] ++ zeroPadNeg 5 (decimalText (-3 : Int).natAbs),
          (max 5 ((decimalText (-3 : Int).natAbs).length + 1) : Nat)) ∧
    (max 5 ((decimalText (-3 : Int).natAbs).length + 1) < (List.replicate 6 0).length →
      sprintf recWrite [] (List.replicate 6 0) ([37, 48] ++ decimalText 5 ++ [100, 0] ++ [])
          [Arg.int (-3)]
        = .ok (zeroPadNeg 5 (decimalText (-3 : Int).natAbs)
              ++ 0 :: (List.replicate 6 0).drop
                (max 5 ((decimalText (-3 : Int).natAbs).length + 1) + 1),
            (max 5 ((decimalText (-3 : Int).natAbs).length + 1) : Nat))) ∧
    sprintf recWrite [] (List.replicate 6 0) [37, 48, 53, 100, 0] [Arg.int (-3)]
      = .ok ([45, 48, 48, 48, 51, 0], 5) :=
  C6_zero_pad_negative recWrite [] (-3) 5 (by norm_num) (by norm_num) (by norm_num)
    (by norm_num) [] [] (List.replicate 6 0)

/-- C7: field-width padding. Without the zero flag, for every width `wd < 2^31` and
every NUL-free text `t` (the string of a `%s` argument, or the decimal rendering of a
`%d` argument), the directive produces `spacePad`: `t` with `wd - length t` spaces (none
when the text is at least as long as the width, so the text is then unchanged), in front
of `t` by default and behind it with the '-' flag; the returned count is the length.
`sprintf("%5d", 3)` gives "    3" and `sprintf("%-5s|", "ab")` gives "ab   |". -/
theorem C7_field_width_padding {σ : Type} (w : Writer σ) (st : σ) (wd : Nat) (left : Bool)
    (hw : wd < 2 ^ 31) (junk pre out : List Nat) :
    (∀ t : List Nat, wd ≤ t.length → spacePad left wd t = t) ∧
    (∀ t rest : List Nat, (∀ c ∈ t, c ≠ 0 ∧ c < 256) → t.length < 2 ^ 31 →
      printf recWrite pre
          ([37] ++ (if left then [45] else []) ++ decimalText wd ++ [115, 0] ++ junk)
          [Arg.str (t ++ 0 :: rest)]
        = .ok (pre ++ spacePad left wd t, ((spacePad left wd t).length : Int)) ∧
      ((spacePad left wd t).length < out.length →
        sprintf w st out
            ([37] ++ (if left then [45] else []) ++ decimalText wd ++ [115, 0] ++ junk)
            [Arg.str (t ++ 0 :: rest)]
          = .ok (spacePad left wd t ++ 0 :: out.drop ((spacePad left wd t).length + 1),
              ((spacePad left wd t).length : Int)))) ∧
    (∀ i : Int, -2 ^ 31 ≤ i → i < 2 ^ 31 →
      printf recWrite pre
          ([37] ++ (if left then [45] else []) ++ decimalText wd ++ [100, 0] ++ junk)
          [Arg.int i]
        = .ok (pre ++ spacePad left wd (intText i),
            ((spacePad left wd (intText i)).length : Int)) ∧
      ((spacePad left wd (intText i)).length < out.length →
        sprintf w st out
            ([37] ++ (if left then [45] else []) ++ decimalText wd ++ [100, 0] ++ junk)
            [Arg.int i]
          = .ok (spacePad left wd (intText i)
                ++ 0 :: out.drop ((spacePad left wd (intText i)).length + 1),
              ((spacePad left wd (intText i)).length : Int)))) ∧
    sprintf recWrite [] (List.replicate 6 0) [37, 53, 100, 0] [Arg.int 3]
      = .ok ([32, 32, 32, 32, 51, 0], 5) ∧
    sprintf recWrite [] (List.replicate 7 0) [37, 45, 53, 115, 124, 0] [Arg.str [97, 98, 0]]
      = .ok ([97, 98, 32, 32, 32, 124, 0], 6) := by
  have hpl : ∀ t : List Nat, (spacePad left wd t).length = max wd t.length := by
    intro t
    simp only [spacePad]
    split <;> simp only [List.length_append, List.length_replicate] <;> omega
  have hpb : ∀ t : List Nat, (∀ c ∈ t, c < 256) → ∀ c ∈ spacePad left wd t, c < 256 := by
    intro t ht c hc
    simp only [spacePad] at hc
    split at hc <;> simp only [List.mem_append, List.mem_replicate] at hc <;>
      rcases hc with h | h
    · exact ht c h
    · omega
    · omega
    · exact ht c h
  refine ⟨?_, ?_, ?_, rfl, rfl⟩
  · intro t ht
    have hk : wd - t.length = 0 := by omega
    simp only [spacePad, hk, List.replicate_zero, List.append_nil, List.nil_append, ite_self]
  · intro t rest ht hl
    exact single_dir w st left wd (Conv.s t rest) hw ⟨fun c hc => (ht c hc).1, hl⟩ junk pre out
      (spacePad left wd t) (xprintsText_space t wd left) (hpb t (fun c hc => (ht c hc).2))
      (by rw [hpl]; omega)
  · intro i hi1 hi2
    obtain ⟨hb, hlen⟩ := intText_props i hi1 hi2
    have hT : (Conv.d i).out (wd : Int) (padOf left 0) = spacePad left wd (intText i) := by
      simp only [Conv.out]
      rw [xprintiText_dec_unpadded i wd (padOf left 0) (by cases left <;> decide) hi1 hi2]
      exact xprintsText_space (intText i) wd left
    exact single_dir w st left wd (Conv.d i) hw trivial junk pre out
      (spacePad left wd (intText i)) hT (hpb _ (fun c hc => (hb c hc).2)) (by rw [hpl]; omega)

/-- C7 at width 5, no '-' flag, for the string "ab". -/
theorem C7_field_width_padding_witness :
    printf recWrite [] ([37] ++ (if false = true then [45] else []) ++ decimalText 5
        ++ [115, 0] ++ []) [Arg.str ([97, 98] ++ 0 :: [])]
      = .ok ([] ++ spacePad false 5 [97, 98], ((spacePad false 5 [97, 98]).length : Int)) :=
  ((C7_field_width_padding recWrite [] 5 false (by norm_num) [] [] []).2.1 [97, 98] []
    (by decide) (by norm_num)).1

/-- C8: `sprintf` terminates its output and returns its length. For every format made of
ordinary characters, `%%` and directives `%[-][0...][width]conv` with `conv` one of
`s d x X u c`, each directive with a fitting argument, ending at its NUL or in a lone '%'
before it (the empty format included), there is a text such that `printf` hands exactly
this text to the sink, and `sprintf` into a buffer with room for the text and a NUL
returns the length `n` of the text, leaves the text in `out[0..n)`, a NUL in `out[n]`
and the rest of the buffer as it was. -/
theorem C8_sprintf_terminated {σ : Type} (w : Writer σ) (st : σ) (items : List Item)
    (hwf : ∀ it ∈ items, it.wf) (lone : Bool) (junk : List Nat) (extra : List Arg)
    (pre out : List Nat) :
    ∃ text : List Nat,
      printf recWrite pre (formatOf items ++ ((if lone then [37] else []) ++ 0 :: junk))
          (argsOf items ++ extra)
        = .ok (pre ++ text, wrapS32 (text.length : Int)) ∧
      (text.length < out.length → out.length ≤ 2 ^ 31 →
        ∃ out1 : List Nat,
          sprintf w st out (formatOf items ++ ((if lone then [37] else []) ++ 0 :: junk))
              (argsOf items ++ extra)
            = .ok (out1, (text.length : Int)) ∧
          out1.take text.length = text ∧
          out1[text.length]? = some 0 ∧
          out1.drop (text.length + 1) = out.drop (text.length + 1) ∧
          out1.length = out.length) := by
  refine ⟨(outOf items).map toU8, ?_, ?_⟩
  · rw [List.length_map]
    exact printf_items items hwf lone junk extra pre
  · intro hroom hcap
    rw [List.length_map] at hroom ⊢
    refine ⟨(outOf items).map toU8 ++ 0 :: out.drop ((outOf items).length + 1), ?_, ?_, ?_, ?_,
      ?_⟩
    · rw [sprintf_items w st items hwf lone junk extra out hroom,
        wrapS32_of_range (by omega) (by omega)]
    · rw [List.take_left' (by simp)]
    · rw [List.getElem?_append_right (by simp)]
      simp
    · rw [List.drop_append_eq_append_drop]
      simp
    · simp only [List.length_append, List.length_map, List.length_cons, List.length_drop]
      omega

/-- C8 for the format "%05d%" with the argument -3 and for a six-byte buffer. -/
theorem C8_sprintf_terminated_witness :
    ∃ text : List Nat,
      printf recWrite [] (formatOf [Item.dir false 1 5 (Conv.d (-3))]
            ++ ((if true = true then [37] else []) ++ 0 :: []))
          (argsOf [Item.dir false 1 5 (Conv.d (-3))] ++ [])
        = .ok ([] ++ text, wrapS32 (text.length : Int)) ∧
      (text.length < (List.replicate 6 1).length → (List.replicate 6 1).length ≤ 2 ^ 31 →
        ∃ out1 : List Nat,
          sprintf recWrite [] (List.replicate 6 1)
              (formatOf [Item.dir false 1 5 (Conv.d (-3))]
                ++ ((if true = true then [37] else []) ++ 0 :: []))
              (argsOf [Item.dir false 1 5 (Conv.d (-3))] ++ [])
            = .ok (out1, (text.length : Int)) ∧
          out1.take text.length = text ∧
          out1[text.length]? = some 0 ∧
          out1.drop (text.length + 1) = (List.replicate 6 1).drop (text.length + 1) ∧
          out1.length = (List.replicate 6 1).length) :=
  C8_sprintf_terminated recWrite [] [Item.dir false 1 5 (Conv.d (-3))]
    (by decide) true [] [] [] (List.replicate 6 1)

/-- C10: the BYTE sentinel. With base `BYTE`, `print` of a signed or of an unsigned 64-bit
`n` makes exactly one call of the sink's `write`, with the byte `n mod 256`, and returns
what that call returns; on the recording sink this is the one byte and the count 1, with
no sign and no digit, also for negative `n`. -/
theorem C10_byte_sentinel {σ : Type} (w : Writer σ) (st : σ) (pre : List Nat) (n : Int)
    (m : Nat) :
    print_ll w st n BYTE = .ok (w st (n % 256).toNat) ∧
    print_ull w st m BYTE = .ok (w st (m % 256)) ∧
    print_ll recWrite pre n BYTE = .ok (pre ++ [(n % 256).toNat], 1) ∧
    print_ull recWrite pre m BYTE = .ok (pre ++ [m % 256], 1) :=
  ⟨rfl, rfl, rfl, rfl⟩

/-- C18: the conversion buffer is large enough and the conversion ends. For every
unsigned 64-bit `n` and base `b` in [2,36], the digit loop of `printNumber`, with its 64
buffer entries, ends without a fault (no entry behind the buffer, no division by zero)
after writing the base-`b` digits of `n`, at most 64 entries, each below `b`, and
`printNumber` returns for every sink. The bound is met: 2^64 - 1 in base 2 fills all 64
entries, and 63 entries would not hold it. -/
theorem C18_conversion_buffer_suffices {σ : Type} (w : Writer σ) (st : σ) (n b : Nat)
    (hn : n < 2 ^ 64) (hb : 2 ≤ b) (hb2 : b ≤ 36) :
    (∃ buf : List Nat,
      digitLoop b 64 n [] = .ok buf ∧ buf.length ≤ 64 ∧ buf = Nat.digits b n ∧
      (∀ d ∈ buf, d < b)) ∧
    (∃ r, printNumber w st n b = .ok r) ∧
    digitLoop 2 64 (2 ^ 64 - 1) [] = .ok (List.replicate 64 1) ∧
    digitLoop 2 63 (2 ^ 64 - 1) [] = .error .bufferOverflow := by
  refine ⟨⟨Nat.digits b n, ?_, digits_length_le_64 hb hn, rfl,
    fun d hd => Nat.digits_lt_base (by omega) hd⟩, printNumber_ok w st n b hn hb hb2,
    digitLoop_all_ones.1, digitLoop_all_ones.2⟩
  have h := digitLoop_eq b hb (by omega) 64 n [] (digits_length_le_64 hb hn)
  simpa using h

/-- C18 at `n = 2^64 - 1`, `b = 2`. -/
theorem C18_conversion_buffer_suffices_witness :
    (∃ buf : List Nat,
      digitLoop 2 64 (2 ^ 64 - 1) [] = .ok buf ∧ buf.length ≤ 64 ∧
      buf = Nat.digits 2 (2 ^ 64 - 1) ∧ (∀ d ∈ buf, d < 2)) ∧
    (∃ r, printNumber recWrite [] (2 ^ 64 - 1) 2 = .ok r) ∧
    digitLoop 2 64 (2 ^ 64 - 1) [] = .ok (List.replicate 64 1) ∧
    digitLoop 2 63 (2 ^ 64 - 1) [] = .error .bufferOverflow :=
  C18_conversion_buffer_suffices recWrite [] (2 ^ 64 - 1) 2 (by norm_num) (by norm_num)
    (by norm_num)

/-- C19: the 12 bytes of `print_buf` are enough for a 32-bit `int`. For every 32-bit
`i` (the minimum included, its negation taken modulo 2^32), base 10 or 16 and either
value of `sg`, the digit loop of `xprinti`, with the 11 bytes in front of the NUL, ends
without a fault, and its text with the NUL, plus the '-' when one is stored, takes at
most 12 bytes; with `letbase` 'a' or 'A' and a width in [0, 2^31), `xprinti` returns on
the recording sink. The minimum `int` in base 10 takes all 12 bytes. -/
theorem C19_print_buf_suffices (i b sg letbase : Int) (hi1 : -2 ^ 31 ≤ i) (hi2 : i < 2 ^ 31)
    (hb : b = 10 ∨ b = 16) :
    (∃ s : List Nat,
      digitsLoop (toU32 b) letbase 11
          (if sg ≠ 0 ∧ b = 10 ∧ i < 0 then toU32 (wrapS32 (-i)) else toU32 i) [0] = .ok s ∧
      s.length + (if sg ≠ 0 ∧ b = 10 ∧ i < 0 then 1 else 0) ≤ 12) ∧
    (∀ (width : Int) (pad : Nat) (pre : List Nat), 0 ≤ width → width < 2 ^ 31 →
      letbase = 97 ∨ letbase = 65 →
      ∃ r, xprinti recWrite { sink := pre, mem := [], pos := none } i b sg width pad letbase
        = .ok r) ∧
    digitsLoop (toU32 10) 97 11 (toU32 (wrapS32 (-(-2147483648)))) [0]
      = .ok [50, 49, 52, 55, 52, 56, 51, 54, 52, 56, 0] := by
  have hi : -2 ^ 31 ≤ i ∧ i < 2 ^ 31 := ⟨hi1, hi2⟩
  have hb' : toU32 b = 10 ∨ toU32 b = 16 := by
    unfold toU32
    omega
  have hloop : ∀ u : Nat, u < 2 ^ 32 →
      digitsLoop (toU32 b) letbase 11 u [0] = .ok (digitsText (toU32 b) letbase u ++ [0]) ∧
      (digitsText (toU32 b) letbase u ++ [0]).length ≤ 11 := by
    intro u hu
    have hlen := digits_u32_length hb' hu
    refine ⟨digitsLoop_eq (toU32 b) letbase (by omega) (by omega) 11 u [0]
      (le_trans hlen (by norm_num)), ?_⟩
    rw [List.length_append, digitsText_length]
    simp only [List.length_singleton]
    omega
  refine ⟨?_, ?_, rfl⟩
  · by_cases hneg : sg ≠ 0 ∧ b = 10 ∧ i < 0
    · obtain ⟨h1, h2⟩ := hloop _ (toU32_lt (wrapS32 (-i)))
      refine ⟨digitsText (toU32 b) letbase (toU32 (wrapS32 (-i))) ++ [0], ?_, ?_⟩
      · rw [if_pos hneg]
        exact h1
      · rw [if_pos hneg]
        omega
    · obtain ⟨h1, h2⟩ := hloop _ (toU32_lt i)
      refine ⟨digitsText (toU32 b) letbase (toU32 i) ++ [0], ?_, ?_⟩
      · rw [if_neg hneg]
        exact h1
      · rw [if_neg hneg]
        omega
  · intro width pad pre hw1 hw2 hl
    rw [xprinti_eq recWrite _ i b sg width pad letbase hb hl hw1 hw2]
    unfold emitRet
    rw [emitAll_rec]
    exact ⟨_, rfl⟩

/-- C19 at the minimum `int`, base 10, signed. -/
theorem C19_print_buf_suffices_witness :
    (∃ s : List Nat,
      digitsLoop (toU32 10) 97 11
          (if (1 : Int) ≠ 0 ∧ (10 : Int) = 10 ∧ (-2147483648 : Int) < 0
            then toU32 (wrapS32 (-(-2147483648))) else toU32 (-2147483648)) [0] = .ok s ∧
      s.length + (if (1 : Int) ≠ 0 ∧ (10 : Int) = 10 ∧ (-2147483648 : Int) < 0 then 1 else 0)
        ≤ 12) ∧
    (∀ (width : Int) (pad : Nat) (pre : List Nat), 0 ≤ width → width < 2 ^ 31 →
      (97 : Int) = 97 ∨ (97 : Int) = 65 →
      ∃ r, xprinti recWrite { sink := pre, mem := [], pos := none } (-2147483648) 10 1 width
        pad 97 = .ok r) ∧
    digitsLoop (toU32 10) 97 11 (toU32 (wrapS32 (-(-2147483648)))) [0]
      = .ok [50, 49, 52, 55, 52, 56, 51, 54, 52, 56, 0] :=
  C19_print_buf_suffices (-2147483648) 10 1 97 (by norm_num) (by norm_num) (Or.inl rfl)

/-- C20, as the claim states it, fails: `printf("%q!")` hands the sink the one byte '!';
the character 'q' behind the '%' is not in the output. -/
theorem C20_unknown_conversion_is_dropped :
    printf recWrite [] [37, 113, 33, 0] [] = .ok ([33], 1) ∧ (113 : Nat) ∉ ([33] : List Nat) :=
  ⟨rfl, by decide⟩

/-- C20, amended: a directive with an unknown conversion prints nothing and takes no
argument. In a format of supported items, a directive `%[-][0...][width]c` whose `c` is
not the NUL, not a digit, none of `s d x X u c` and, right behind the '%', neither '-'
nor '%', is skipped as a whole, `c` included: `printf` hands the sink the text of the
items in front of it followed by the text of the items behind it, each item with its own
argument, which is what `printf` gives for the format without the directive. -/
theorem C20_unknown_directive_skipped (items1 items2 : List Item)
    (hwf1 : ∀ it ∈ items1, it.wf) (hwf2 : ∀ it ∈ items2, it.wf) (left : Bool)
    (zeros width c : Nat) (hw : width < 2 ^ 31) (hc : UnknownConv left zeros width c)
    (lone : Bool) (junk : List Nat) (extra : List Arg) (pre : List Nat) :
    printf recWrite pre
        (formatOf items1 ++ (directiveText left zeros width c
          ++ (formatOf items2 ++ ((if lone then [37] else []) ++ 0 :: junk))))
        (argsOf items1 ++ (argsOf items2 ++ extra))
      = .ok (pre ++ (outOf items1 ++ outOf items2).map toU8,
          wrapS32 ((outOf items1 ++ outOf items2).length : Int)) ∧
    printf recWrite pre
        (formatOf items1 ++ (formatOf items2 ++ ((if lone then [37] else []) ++ 0 :: junk)))
        (argsOf items1 ++ (argsOf items2 ++ extra))
      = .ok (pre ++ (outOf items1 ++ outOf items2).map toU8,
          wrapS32 ((outOf items1 ++ outOf items2).length : Int)) := by
  refine ⟨printf_unknown items1 items2 hwf1 hwf2 left zeros width c hw hc lone junk extra pre,
    ?_⟩
  have hwf : ∀ it ∈ items1 ++ items2, it.wf := by
    intro it hit
    rcases List.mem_append.mp hit with h | h
    · exact hwf1 it h
    · exact hwf2 it h
  have h := printf_items (items1 ++ items2) hwf lone junk extra pre
  rw [formatOf_append, argsOf_append, outOf_append, List.append_assoc, List.append_assoc] at h
  exact h

/-- C20 amended, for the format "%d%-07q!" with the argument 5. -/
theorem C20_unknown_directive_skipped_witness :
    printf recWrite []
        (formatOf [Item.dir false 0 0 (Conv.d 5)] ++ (directiveText true 1 7 113
          ++ (formatOf [Item.lit 33] ++ ((if false = true then [37] else []) ++ 0 :: []))))
        (argsOf [Item.dir false 0 0 (Conv.d 5)] ++ (argsOf [Item.lit 33] ++ []))
      = .ok ([] ++ (outOf [Item.dir false 0 0 (Conv.d 5)] ++ outOf [Item.lit 33]).map toU8,
          wrapS32 ((outOf [Item.dir false 0 0 (Conv.d 5)] ++ outOf [Item.lit 33]).length
            : Int)) ∧
    printf recWrite []
        (formatOf [Item.dir false 0 0 (Conv.d 5)]
          ++ (formatOf [Item.lit 33] ++ ((if false = true then [37] else []) ++ 0 :: [])))
        (argsOf [Item.dir false 0 0 (Conv.d 5)] ++ (argsOf [Item.lit 33] ++ []))
      = .ok ([] ++ (outOf [Item.dir false 0 0 (Conv.d 5)] ++ outOf [Item.lit 33]).map toU8,
          wrapS32 ((outOf [Item.dir false 0 0 (Conv.d 5)] ++ outOf [Item.lit 33]).length
            : Int)) :=
  C20_unknown_directive_skipped [Item.dir false 0 0 (Conv.d 5)] [Item.lit 33] (by decide)
    (by decide) true 1 7 113 (by norm_num) (by decide) false [] [] []

end Print

namespace Tone

/-! ## Lemmas on the tone engine -/

theorem tone_valid (s : State) (Pin freq : Nat) (hf : 0 < freq) (hf2 : freq ≤ 500000) :
    (tone s Pin freq).ToneTimer = s.ToneTimer ∧
    (tone s Pin freq).tone_State = On ∧
    (tone s Pin freq).tone_Pin = Pin ∧
    (tone s Pin freq).timerEnabled s.ToneTimer = true ∧
    (∀ t, t ≠ s.ToneTimer → (tone s Pin freq).timerEnabled t = s.timerEnabled t) ∧
    (tone s Pin freq).pinLevel = s.pinLevel ∧
    (tone s Pin freq).tone_StopTimePoint = s.tone_StopTimePoint := by
  have hc : ¬ (freq = 0 ∨ freq > 500000) := by omega
  have hf0 : freq ≠ 0 := by omega
  have hf5 : ¬ (500000 < freq) := by omega
  by_cases ht : s.ToneTimer = s.ToneTimer_Last
  · simp only [tone, hf0, hf5, or_self, if_false, ht, ne_eq, not_true_eq_false, TIM_Cmd,
      TimerSet_InterruptTimeUpdate, if_true, true_and]
    exact ⟨fun t h => if_neg h, trivial⟩
  · simp only [tone, hf0, hf5, or_self, if_false, ht, ne_eq, not_false_eq_true, TIM_Cmd,
      Timer_Init, if_true, true_and]
    exact ⟨fun t h => if_neg h, trivial⟩

theorem noTone_fields (s : State) (Pin : Nat) :
    (noTone s Pin).ToneTimer = s.ToneTimer ∧
    (noTone s Pin).tone_State = Off ∧
    (noTone s Pin).pinLevel Pin = false ∧
    (noTone s Pin).timerEnabled s.ToneTimer = false ∧
    (∀ t, t ≠ s.ToneTimer → (noTone s Pin).timerEnabled t = s.timerEnabled t) := by
  unfold noTone digitalWrite_LOW TIM_Cmd
  exact ⟨rfl, rfl, if_pos rfl, if_pos rfl, fun t h => if_neg h⟩

theorem handler_on (s : State) (now : Nat) (h : s.tone_State = On) :
    tone_TimerHandler s now = togglePin s s.tone_Pin := by
  unfold tone_TimerHandler
  have hs : (togglePin s s.tone_Pin).tone_State = On := h
  have hn : ¬ (now > (togglePin s s.tone_Pin).tone_StopTimePoint
      ∧ (togglePin s s.tone_Pin).tone_State = 0) := by
    rw [hs]
    intro hc
    exact absurd hc.2 (by decide)
  simp only [if_neg hn]

theorem handler_run_on (pin : Nat) :
    ∀ (clocks : List Nat) (s : State), s.tone_State = On → s.tone_Pin = pin →
      clocks.foldl tone_TimerHandler s
        = Nat.iterate (fun x => togglePin x pin) clocks.length s := by
  intro clocks
  induction clocks with
  | nil => intro s _ _; rfl
  | cons c cs ih =>
    intro s hs hp
    rw [List.foldl_cons, handler_on s c hs, hp, List.length_cons, Function.iterate_succ_apply]
    exact ih (togglePin s pin) hs hp

theorem toggle_iterate_fields (pin : Nat) :
    ∀ (n : Nat) (s : State),
      (Nat.iterate (fun x => togglePin x pin) n s).tone_State = s.tone_State ∧
      (Nat.iterate (fun x => togglePin x pin) n s).timerEnabled = s.timerEnabled ∧
      (Nat.iterate (fun x => togglePin x pin) n s).ToneTimer = s.ToneTimer := by
  intro n
  induction n with
  | zero => intro s; exact ⟨rfl, rfl, rfl⟩
  | succ n ih =>
    intro s
    rw [Function.iterate_succ_apply]
    exact ih (togglePin s pin)

theorem tone_ms_valid (s : State) (now Pin freq Time_ms : Nat) (hf : 0 < freq)
    (hf2 : freq ≤ 500000) (hd : 0 < Time_ms) :
    (tone_ms s now Pin freq Time_ms).ToneTimer = s.ToneTimer ∧
    (tone_ms s now Pin freq Time_ms).tone_State = Off ∧
    (tone_ms s now Pin freq Time_ms).tone_Pin = Pin ∧
    (tone_ms s now Pin freq Time_ms).timerEnabled s.ToneTimer = true ∧
    (∀ t, t ≠ s.ToneTimer → (tone_ms s now Pin freq Time_ms).timerEnabled t = s.timerEnabled t) ∧
    (tone_ms s now Pin freq Time_ms).pinLevel = s.pinLevel ∧
    (tone_ms s now Pin freq Time_ms).tone_StopTimePoint = (now + Time_ms) % 2 ^ 32 := by
  have hc : ¬ (freq = 0 ∨ freq > 500000 ∨ Time_ms = 0) := by omega
  obtain ⟨h1, _, h3, h4, h5, h6, _⟩ := tone_valid s Pin freq hf hf2
  unfold tone_ms
  rw [if_neg hc]
  exact ⟨h1, rfl, h3, h4, h5, h6, rfl⟩

theorem onlySelected_noTone (s : State) (Pin : Nat) (h : OnlySelected s) :
    OnlySelected (noTone s Pin) := by
  obtain ⟨h1, _, _, h4, h5⟩ := noTone_fields s Pin
  intro t ht
  by_cases hts : t = s.ToneTimer
  · rw [hts, h4] at ht
    exact absurd ht (by decide)
  · rw [h5 t hts] at ht
    exact absurd (h t ht) hts

theorem onlySelected_tone (s : State) (Pin freq : Nat) (h : OnlySelected s) :
    OnlySelected (tone s Pin freq) := by
  by_cases hc : freq = 0 ∨ freq > 500000
  · unfold tone
    rw [if_pos hc]
    exact onlySelected_noTone s Pin h
  · obtain ⟨h1, _, _, _, h5, _, _⟩ := tone_valid s Pin freq (by omega) (by omega)
    intro t ht
    rw [h1]
    by_cases hts : t = s.ToneTimer
    · exact hts
    · rw [h5 t hts] at ht
      exact h t ht

theorem onlySelected_tone_ms (s : State) (now Pin freq Time_ms : Nat) (h : OnlySelected s) :
    OnlySelected (tone_ms s now Pin freq Time_ms) := by
  by_cases hc : freq = 0 ∨ freq > 500000 ∨ Time_ms = 0
  · unfold tone_ms
    rw [if_pos hc]
    exact onlySelected_noTone s Pin h
  · obtain ⟨h1, _, _, _, h5, _, _⟩ :=
      tone_ms_valid s now Pin freq Time_ms (by omega) (by omega) (by omega)
    intro t ht
    rw [h1]
    by_cases hts : t = s.ToneTimer
    · exact hts
    · rw [h5 t hts] at ht
      exact h t ht

theorem onlySelected_handler (s : State) (now : Nat) (h : OnlySelected s) :
    OnlySelected (tone_TimerHandler s now) := by
  have ht : OnlySelected (togglePin s s.tone_Pin) := h
  unfold tone_TimerHandler
  simp only
  split
  · exact onlySelected_noTone _ _ ht
  · exact ht

theorem onlySelected_run :
    ∀ (cs : List Call) (s : State), OnlySelected s → settled s cs = true →
      OnlySelected (run s cs) := by
  intro cs
  induction cs with
  | nil => intro s h _; exact h
  | cons c cs ih =>
    intro s h hs
    cases c with
    | setTimer t =>
      simp only [settled, Bool.and_eq_true, Bool.or_eq_true, decide_eq_true_eq,
        Bool.not_eq_true'] at hs
      obtain ⟨hg, hrest⟩ := hs
      refine ih _ ?_ hrest
      intro x hx
      have hx2 : x = s.ToneTimer := h x hx
      rcases hg with hg | hg
      · rw [hx2]
        exact hg.symm
      · rw [hx2] at hx
        have hx3 : s.timerEnabled s.ToneTimer = true := hx
        rw [hg] at hx3
        exact absurd hx3 (by decide)
    | tone pin freq =>
      simp only [settled, Bool.true_and] at hs
      exact ih _ (onlySelected_tone s pin freq h) hs
    | toneMs now pin freq ms =>
      simp only [settled, Bool.true_and] at hs
      exact ih _ (onlySelected_tone_ms s now pin freq ms h) hs
    | noTone pin =>
      simp only [settled, Bool.true_and] at hs
      exact ih _ (onlySelected_noTone s pin h) hs
    | handler now =>
      simp only [settled, Bool.true_and] at hs
      exact ih _ (onlySelected_handler s now h) hs

theorem cycles_succ_append (Pin dlHigh dlLow : Nat) (l : List Event) (n : Nat) :
    l ++ [Event.write Pin true, Event.delay dlHigh, Event.write Pin false, Event.delay dlLow]
        ++ cycles Pin dlHigh dlLow n
      = l ++ cycles Pin dlHigh dlLow (n + 1) := by
  simp [cycles]

theorem cycle_trace (b : Board) (Pin dlHigh dlLow : Nat) :
    (cycle b Pin dlHigh dlLow).trace
      = b.trace ++ [Event.write Pin true, Event.delay dlHigh, Event.write Pin false,
          Event.delay dlLow] := by
  simp [cycle, delayMicroseconds, digitalWrite]

theorem blockLoop_trace (inMicros : Bool) (Pin dlHigh dlLow TimePoint : Nat) :
    ∀ (fuel : Nat) (b : Board),
      ∃ n : Nat, n ≤ fuel ∧ (1 ≤ fuel → 1 ≤ n) ∧
        (blockLoop inMicros Pin dlHigh dlLow TimePoint fuel b).1.trace
          = b.trace ++ cycles Pin dlHigh dlLow n := by
  intro fuel
  induction fuel with
  | zero =>
    intro b
    exact ⟨0, le_refl _, fun h => absurd h (by decide), by simp [blockLoop, cycles]⟩
  | succ k ih =>
    intro b
    rw [blockLoop]
    by_cases hc : (if inMicros then micros (cycle b Pin dlHigh dlLow)
        else millis (cycle b Pin dlHigh dlLow)) < TimePoint
    · obtain ⟨n, hn, _, htr⟩ := ih (cycle b Pin dlHigh dlLow)
      refine ⟨n + 1, by omega, fun _ => by omega, ?_⟩
      simp only [if_pos hc]
      rw [htr, cycle_trace, cycles_succ_append]
    · refine ⟨1, by omega, fun _ => le_refl _, ?_⟩
      simp only [if_neg hc]
      rw [cycle_trace]
      simp [cycles]

theorem blockRun_trace (inMicros : Bool) (fuel : Nat) (b : Board)
    (Pin dlHigh dlLow TimePoint : Nat) (hfuel : 1 ≤ fuel) :
    ∃ n : Nat, 1 ≤ n ∧ n ≤ fuel ∧
      (blockRun inMicros fuel b Pin dlHigh dlLow TimePoint).1.trace
        = b.trace ++ cycles Pin dlHigh dlLow n
          ++ (if (blockRun inMicros fuel b Pin dlHigh dlLow TimePoint).2
              then [Event.write Pin false] else []) := by
  obtain ⟨n, hn, h1, htr⟩ := blockLoop_trace inMicros Pin dlHigh dlLow TimePoint fuel b
  refine ⟨n, h1 hfuel, hn, ?_⟩
  unfold blockRun
  by_cases hfin : (blockLoop inMicros Pin dlHigh dlLow TimePoint fuel b).2 = true
  · simp only [if_pos hfin, if_true]
    simp [digitalWrite, htr]
  · simp only [if_neg hfin]
    simp [htr]

theorem volumn_delays (freq : Nat) :
    (500000 / freq * 100) % 2 ^ 32 / 100 = 500000 / freq ∧
    (2 * (500000 / freq) % 2 ^ 32 + 2 ^ 32 - 500000 / freq) % 2 ^ 32 = 500000 / freq ∧
    (500000 / freq * 0) % 2 ^ 32 / 100 = 0 ∧
    (2 * (500000 / freq) % 2 ^ 32 + 2 ^ 32 - 0) % 2 ^ 32 = 2 * (500000 / freq) := by
  have h : 500000 / freq ≤ 500000 := Nat.div_le_self _ _
  omega

theorem toggle_iterate_timed (pin : Nat) :
    ∀ (n : Nat) (s : State),
      (Nat.iterate (fun x => togglePin x pin) n s).tone_Pin = s.tone_Pin ∧
      (Nat.iterate (fun x => togglePin x pin) n s).tone_StopTimePoint
        = s.tone_StopTimePoint := by
  intro n
  induction n with
  | zero => intro s; exact ⟨rfl, rfl⟩
  | succ n ih =>
    intro s
    rw [Function.iterate_succ_apply]
    exact ih (togglePin s pin)

theorem handler_not_past (s : State) (now : Nat) (h : now ≤ s.tone_StopTimePoint) :
    tone_TimerHandler s now = togglePin s s.tone_Pin := by
  unfold tone_TimerHandler
  have hn : ¬ (now > (togglePin s s.tone_Pin).tone_StopTimePoint
      ∧ (togglePin s s.tone_Pin).tone_State = 0) := by
    intro hc
    have h1 : now > s.tone_StopTimePoint := hc.1
    omega
  simp only [if_neg hn]

theorem handler_past (s : State) (now : Nat) (h : s.tone_StopTimePoint < now)
    (hst : s.tone_State = 0) :
    tone_TimerHandler s now = noTone (togglePin s s.tone_Pin) s.tone_Pin := by
  unfold tone_TimerHandler
  have hp : now > (togglePin s s.tone_Pin).tone_StopTimePoint
      ∧ (togglePin s s.tone_Pin).tone_State = 0 := ⟨h, hst⟩
  simp only [if_pos hp]
  rfl

theorem handler_run_not_past (pin D : Nat) :
    ∀ (ticks : List Nat) (s : State), s.tone_Pin = pin → s.tone_StopTimePoint = D →
      (∀ c ∈ ticks, c ≤ D) →
      ticks.foldl tone_TimerHandler s
        = Nat.iterate (fun x => togglePin x pin) ticks.length s := by
  intro ticks
  induction ticks with
  | nil => intro s _ _ _; rfl
  | cons c cs ih =>
    intro s hp hD hc
    have hc0 : c ≤ s.tone_StopTimePoint := by
      rw [hD]
      exact hc c (by simp)
    rw [List.foldl_cons, handler_not_past s c hc0, hp, List.length_cons,
      Function.iterate_succ_apply]
    exact ih (togglePin s pin) hp hD (fun x hx => hc x (by simp [hx]))

/-! ## The claims on the tone engine -/

/-- C11, as the claim states it, fails when the deadline wraps around the 32-bit clock:
`tone(3, 1000, 10)` called at the clock value 4294967295 stores the stop time point 9,
and a handler call at the same clock value, which is not past 4294967295 + 10, already
disables the timer and leaves the pin low. -/
theorem C11_deadline_wraps :
    ¬ (4294967295 + 10 < 4294967295) ∧
    (tone_ms (init 1 (fun _ => false)) 4294967295 3 1000 10).tone_StopTimePoint = 9 ∧
    (tone_TimerHandler (tone_ms (init 1 (fun _ => false)) 4294967295 3 1000 10)
      4294967295).timerEnabled 1 = false ∧
    (tone_TimerHandler (tone_ms (init 1 (fun _ => false)) 4294967295 3 1000 10)
      4294967295).pinLevel 3 = false :=
  ⟨by decide, rfl, rfl, rfl⟩

/-- C11, amended: timed tone expiry while the deadline does not wrap. For every state,
pin, frequency `f` in (0, 500000], duration `d > 0` and clock value `now` with
`now + d < 2^32`, after `tone(pin, f, d)` called at `now` and any number of handler calls
at clock values not past `now + d`, the state is the one after `tone(pin, f, d)` with the
pin inverted once per call, and the selected timer runs; from there a handler call at a
clock value past `now + d` leaves the pin low, the timer disabled and `tone_State` Off,
and a handler call at a clock value not past `now + d` only inverts the pin and leaves
the timer enabled. -/
theorem C11_timed_tone_expiry (s : State) (pin f d now t : Nat) (ticks : List Nat)
    (hf : 0 < f) (hf2 : f ≤ 500000) (hd : 0 < d) (hnow : now + d < 2 ^ 32)
    (hticks : ∀ c ∈ ticks, c ≤ now + d) :
    ticks.foldl tone_TimerHandler (tone_ms s now pin f d)
      = Nat.iterate (fun x => togglePin x pin) ticks.length (tone_ms s now pin f d) ∧
    (ticks.foldl tone_TimerHandler (tone_ms s now pin f d)).timerEnabled s.ToneTimer = true ∧
    (now + d < t →
      (tone_TimerHandler (ticks.foldl tone_TimerHandler (tone_ms s now pin f d)) t).pinLevel pin
        = false ∧
      (tone_TimerHandler (ticks.foldl tone_TimerHandler (tone_ms s now pin f d))
        t).timerEnabled s.ToneTimer = false ∧
      (tone_TimerHandler (ticks.foldl tone_TimerHandler (tone_ms s now pin f d)) t).tone_State
        = Off) ∧
    (t ≤ now + d →
      tone_TimerHandler (ticks.foldl tone_TimerHandler (tone_ms s now pin f d)) t
        = togglePin (ticks.foldl tone_TimerHandler (tone_ms s now pin f d)) pin ∧
      (tone_TimerHandler (ticks.foldl tone_TimerHandler (tone_ms s now pin f d)) t).pinLevel pin
        = !(ticks.foldl tone_TimerHandler (tone_ms s now pin f d)).pinLevel pin ∧
      (tone_TimerHandler (ticks.foldl tone_TimerHandler (tone_ms s now pin f d))
        t).timerEnabled s.ToneTimer = true) := by
  obtain ⟨h1, h2, h3, h4, _, _, h7⟩ := tone_ms_valid s now pin f d hf hf2 hd
  rw [Nat.mod_eq_of_lt hnow] at h7
  have hrun := handler_run_not_past pin (now + d) ticks (tone_ms s now pin f d) h3 h7 hticks
  obtain ⟨t1, t2, t3⟩ := toggle_iterate_fields pin ticks.length (tone_ms s now pin f d)
  obtain ⟨t4, t5⟩ := toggle_iterate_timed pin ticks.length (tone_ms s now pin f d)
  rw [← hrun] at t1 t2 t3 t4 t5
  rw [h2] at t1
  rw [h1] at t3
  rw [h3] at t4
  rw [h7] at t5
  have hen : (ticks.foldl tone_TimerHandler (tone_ms s now pin f d)).timerEnabled s.ToneTimer
      = true := by
    rw [t2]
    exact h4
  refine ⟨hrun, hen, ?_, ?_⟩
  · intro hpast
    have hstep := handler_past (ticks.foldl tone_TimerHandler (tone_ms s now pin f d)) t
      (by rw [t5]; exact hpast) t1
    rw [t4] at hstep
    obtain ⟨_, n2, n3, n4, _⟩ :=
      noTone_fields (togglePin (ticks.foldl tone_TimerHandler (tone_ms s now pin f d)) pin) pin
    have htim : (togglePin (ticks.foldl tone_TimerHandler (tone_ms s now pin f d))
        pin).ToneTimer = s.ToneTimer := t3
    rw [htim] at n4
    rw [hstep]
    exact ⟨n3, n4, n2⟩
  · intro hnot
    have hstep := handler_not_past (ticks.foldl tone_TimerHandler (tone_ms s now pin f d)) t
      (by rw [t5]; exact hnot)
    rw [t4] at hstep
    refine ⟨hstep, ?_, ?_⟩
    · rw [hstep]
      simp [togglePin]
    · rw [hstep]
      exact hen

/-- C11 amended, for the start-up state, pin 3, 1000 Hz, 10 ms, called at clock 100,
with handler calls at the clocks 105 and 110 and then at 111. -/
theorem C11_timed_tone_expiry_witness :
    [105, 110].foldl tone_TimerHandler (tone_ms (init 1 (fun _ => false)) 100 3 1000 10)
      = Nat.iterate (fun x => togglePin x 3) [105, 110].length
          (tone_ms (init 1 (fun _ => false)) 100 3 1000 10) ∧
    ([105, 110].foldl tone_TimerHandler
      (tone_ms (init 1 (fun _ => false)) 100 3 1000 10)).timerEnabled
        (init 1 (fun _ => false)).ToneTimer = true ∧
    (100 + 10 < 111 →
      (tone_TimerHandler ([105, 110].foldl tone_TimerHandler
        (tone_ms (init 1 (fun _ => false)) 100 3 1000 10)) 111).pinLevel 3 = false ∧
      (tone_TimerHandler ([105, 110].foldl tone_TimerHandler
        (tone_ms (init 1 (fun _ => false)) 100 3 1000 10)) 111).timerEnabled
          (init 1 (fun _ => false)).ToneTimer = false ∧
      (tone_TimerHandler ([105, 110].foldl tone_TimerHandler
        (tone_ms (init 1 (fun _ => false)) 100 3 1000 10)) 111).tone_State = Off) ∧
    (111 ≤ 100 + 10 →
      tone_TimerHandler ([105, 110].foldl tone_TimerHandler
          (tone_ms (init 1 (fun _ => false)) 100 3 1000 10)) 111
        = togglePin ([105, 110].foldl tone_TimerHandler
          (tone_ms (init 1 (fun _ => false)) 100 3 1000 10)) 3 ∧
      (tone_TimerHandler ([105, 110].foldl tone_TimerHandler
        (tone_ms (init 1 (fun _ => false)) 100 3 1000 10)) 111).pinLevel 3
        = !([105, 110].foldl tone_TimerHandler
          (tone_ms (init 1 (fun _ => false)) 100 3 1000 10)).pinLevel 3 ∧
      (tone_TimerHandler ([105, 110].foldl tone_TimerHandler
        (tone_ms (init 1 (fun _ => false)) 100 3 1000 10)) 111).timerEnabled
          (init 1 (fun _ => false)).ToneTimer = true) :=
  C11_timed_tone_expiry (init 1 (fun _ => false)) 3 1000 10 100 111 [105, 110] (by norm_num)
    (by norm_num) (by norm_num) (by norm_num) (by decide)

/-- C12: a continuous tone never stops by itself. After `tone(pin, f)` with `f` in
(0, 500000], whatever the clock values of any number of handler calls, the state
reached is the state after `tone` with the pin inverted once per call: `tone_State` is
still On and the selected timer still runs. -/
theorem C12_continuous_tone_never_stops (s : State) (pin f : Nat) (hf : 0 < f)
    (hf2 : f ≤ 500000) (clocks : List Nat) :
    clocks.foldl tone_TimerHandler (tone s pin f)
      = Nat.iterate (fun x => togglePin x pin) clocks.length (tone s pin f) ∧
    (clocks.foldl tone_TimerHandler (tone s pin f)).tone_State = On ∧
    (clocks.foldl tone_TimerHandler (tone s pin f)).timerEnabled s.ToneTimer = true := by
  obtain ⟨_, h2, h3, h4, _, _, _⟩ := tone_valid s pin f hf hf2
  have hrun := handler_run_on pin clocks (tone s pin f) h2 h3
  obtain ⟨t1, t2, _⟩ := toggle_iterate_fields pin clocks.length (tone s pin f)
  refine ⟨hrun, ?_, ?_⟩
  · rw [hrun, t1]
    exact h2
  · rw [hrun, t2]
    exact h4

/-- C12 for the start-up state, pin 3, 1000 Hz and three handler calls. -/
theorem C12_continuous_tone_never_stops_witness :
    [5, 4000000000, 7].foldl tone_TimerHandler (tone (init 1 (fun _ => false)) 3 1000)
      = Nat.iterate (fun x => togglePin x 3) [5, 4000000000, 7].length
          (tone (init 1 (fun _ => false)) 3 1000) ∧
    ([5, 4000000000, 7].foldl tone_TimerHandler
      (tone (init 1 (fun _ => false)) 3 1000)).tone_State = On ∧
    ([5, 4000000000, 7].foldl tone_TimerHandler
      (tone (init 1 (fun _ => false)) 3 1000)).timerEnabled
        (init 1 (fun _ => false)).ToneTimer = true :=
  C12_continuous_tone_never_stops (init 1 (fun _ => false)) 3 1000 (by norm_num)
    (by norm_num) [5, 4000000000, 7]

/-- C13: invalid input is a stop request. In every state, `tone(pin, f)` with `f = 0` or
`f > 500000`, and `tone(pin, f, d)` with `f = 0` or `f > 500000` or `d = 0`, give the
very state `noTone(pin)` gives. -/
theorem C13_invalid_input_is_stop (s : State) (pin : Nat) :
    (∀ f : Nat, f = 0 ∨ f > 500000 → tone s pin f = noTone s pin) ∧
    (∀ now f d : Nat, f = 0 ∨ f > 500000 ∨ d = 0 → tone_ms s now pin f d = noTone s pin) := by
  refine ⟨?_, ?_⟩
  · intro f hf
    unfold tone
    rw [if_pos hf]
  · intro now f d hf
    unfold tone_ms
    rw [if_pos hf]

/-- C13 at the frequency 500001 and at the duration 0. -/
theorem C13_invalid_input_is_stop_witness :
    tone (init 1 (fun _ => true)) 3 500001 = noTone (init 1 (fun _ => true)) 3 ∧
    tone_ms (init 1 (fun _ => true)) 77 3 440 0 = noTone (init 1 (fun _ => true)) 3 :=
  ⟨(C13_invalid_input_is_stop (init 1 (fun _ => true)) 3).1 500001 (Or.inr (by norm_num)),
    (C13_invalid_input_is_stop (init 1 (fun _ => true)) 3).2 77 440 0 (Or.inr (Or.inr rfl))⟩

/-- C14: start then stop. In every state (so for every selected timer), for every pin
and every `f` in (0, 500000], `tone(pin, f)` starts the selected timer, and `noTone(pin)`
right after it leaves the pin low, that timer disabled and `tone_State` Off. -/
theorem C14_start_then_stop (s : State) (pin f : Nat) (hf : 0 < f) (hf2 : f ≤ 500000) :
    (tone s pin f).ToneTimer = s.ToneTimer ∧
    (tone s pin f).timerEnabled s.ToneTimer = true ∧
    (noTone (tone s pin f) pin).pinLevel pin = false ∧
    (noTone (tone s pin f) pin).timerEnabled s.ToneTimer = false ∧
    (noTone (tone s pin f) pin).tone_State = Off := by
  obtain ⟨h1, _, _, h4, _, _, _⟩ := tone_valid s pin f hf hf2
  obtain ⟨_, n2, n3, n4, _⟩ := noTone_fields (tone s pin f) pin
  rw [h1] at n4
  exact ⟨h1, h4, n3, n4, n2⟩

/-- C14 for the start-up state with timer 7 selected and the pin high. -/
theorem C14_start_then_stop_witness :
    (tone (init 7 (fun _ => true)) 3 440).ToneTimer = (init 7 (fun _ => true)).ToneTimer ∧
    (tone (init 7 (fun _ => true)) 3 440).timerEnabled (init 7 (fun _ => true)).ToneTimer
      = true ∧
    (noTone (tone (init 7 (fun _ => true)) 3 440) 3).pinLevel 3 = false ∧
    (noTone (tone (init 7 (fun _ => true)) 3 440) 3).timerEnabled
      (init 7 (fun _ => true)).ToneTimer = false ∧
    (noTone (tone (init 7 (fun _ => true)) 3 440) 3).tone_State = Off :=
  C14_start_then_stop (init 7 (fun _ => true)) 3 440 (by norm_num) (by norm_num)

/-- C15, as the claim states it, fails: from the start-up state with timer 1 selected,
`tone(1, 1000)`, `toneSetTimer(2)`, `tone(1, 1000)` leaves the timers 1 and 2 both
running, since nothing disables the timer selected before. -/
theorem C15_two_timers_enabled :
    (run (init 1 (fun _ => false))
      [Call.tone 1 1000, Call.setTimer 2, Call.tone 1 1000]).timerEnabled 1 = true ∧
    (run (init 1 (fun _ => false))
      [Call.tone 1 1000, Call.setTimer 2, Call.tone 1 1000]).timerEnabled 2 = true ∧
    (1 : Nat) ≠ 2 :=
  ⟨rfl, rfl, by decide⟩

/-- C15, amended: the single-channel invariant for sequences that select another timer
only while the selected one is not running. In every state reached from the start-up
state by such a sequence of `toneSetTimer`, `tone(pin, f)`, `tone(pin, f, d)`, `noTone`
and handler calls, every running timer is the selected one, so at most one timer runs. -/
theorem C15_single_channel (ToneTimer_Default : Nat) (pins : Nat → Bool) (cs : List Call)
    (hs : settled (init ToneTimer_Default pins) cs = true) :
    (∀ t, (run (init ToneTimer_Default pins) cs).timerEnabled t = true →
      t = (run (init ToneTimer_Default pins) cs).ToneTimer) ∧
    (∀ a b, (run (init ToneTimer_Default pins) cs).timerEnabled a = true →
      (run (init ToneTimer_Default pins) cs).timerEnabled b = true → a = b) := by
  have h0 : OnlySelected (init ToneTimer_Default pins) := by
    intro t ht
    exact absurd ht (by simp [init])
  have h := onlySelected_run cs (init ToneTimer_Default pins) h0 hs
  exact ⟨h, fun a b ha hb => (h a ha).trans (h b hb).symm⟩

/-- C15 amended, for a sequence that stops the tone before it selects timer 2. -/
theorem C15_single_channel_witness :
    (∀ t, (run (init 1 (fun _ => false))
        [Call.tone 1 1000, Call.noTone 1, Call.setTimer 2, Call.toneMs 5 4 1000 20,
          Call.handler 6]).timerEnabled t = true →
      t = (run (init 1 (fun _ => false))
        [Call.tone 1 1000, Call.noTone 1, Call.setTimer 2, Call.toneMs 5 4 1000 20,
          Call.handler 6]).ToneTimer) ∧
    (∀ a b, (run (init 1 (fun _ => false))
        [Call.tone 1 1000, Call.noTone 1, Call.setTimer 2, Call.toneMs 5 4 1000 20,
          Call.handler 6]).timerEnabled a = true →
      (run (init 1 (fun _ => false))
        [Call.tone 1 1000, Call.noTone 1, Call.setTimer 2, Call.toneMs 5 4 1000 20,
          Call.handler 6]).timerEnabled b = true → a = b) :=
  C15_single_channel 1 (fun _ => false)
    [Call.tone 1 1000, Call.noTone 1, Call.setTimer 2, Call.toneMs 5 4 1000 20, Call.handler 6]
    (by decide)

/-- C16: with `freq = 0` the three blocking variants reach the division `500000 / freq`
before the test `if(freq == 0)return;`: with the division guarded they end in the
division-by-zero fault, for every pin, duration, volume and board. -/
theorem C16_zero_frequency_divides (fuel : Nat) (b : Board) (pin dur vol : Nat) :
    toneBlock fuel b pin 0 dur = .error .divByZero ∧
    toneBlock_Volumn fuel b pin 0 dur vol = .error .divByZero ∧
    toneBlock_Volumn_us fuel b pin 0 dur vol = .error .divByZero :=
  ⟨rfl, rfl, rfl⟩

/-- C17, as the claim states it, fails at volume 100: for 1000 Hz the half-period is 500
and the period 1000, and `toneBlock_Volumn(3, 1000, 0, 100)` writes the pin high, waits
500, writes it low and waits 500: the high delay is half the period and the low delay
is as long as the high one. -/
theorem C17_full_volume_is_half_duty :
    500000 / 1000 = 500 ∧
    (match toneBlock_Volumn 1 { us := 0, pinLevel := fun _ => false, trace := [] } 3 1000 0 100 with
      | .ok r => r.1.trace
      | .error _ => [])
      = [Event.write 3 true, Event.delay 500, Event.write 3 false, Event.delay 500,
          Event.write 3 false] :=
  ⟨rfl, rfl⟩

/-- C17, amended: volume extremes. For every frequency `f` in [1, 500000] with
half-period `h = 500000 / f`, `toneBlock_Volumn` and `toneBlock_Volumn_us` run, with any
positive bound on the turns of the loop, at least one turn, and in every turn write the
pin high, wait, write it low, wait (followed by one write low when the loop has ended):
with volume 100 both waits are `h`, a duty of one half, and with volume 0 the high wait
is 0 and the low wait is the period `2 * h`. -/
theorem C17_volume_extremes (fuel : Nat) (b : Board) (pin f dur : Nat) (hfuel : 1 ≤ fuel)
    (hf : 1 ≤ f) (hf2 : f ≤ 500000) :
    (∃ n r, 1 ≤ n ∧ toneBlock_Volumn fuel b pin f dur 100 = .ok r ∧
      r.1.trace = b.trace ++ cycles pin (500000 / f) (500000 / f) n
        ++ (if r.2 then [Event.write pin false] else [])) ∧
    (∃ n r, 1 ≤ n ∧ toneBlock_Volumn_us fuel b pin f dur 100 = .ok r ∧
      r.1.trace = b.trace ++ cycles pin (500000 / f) (500000 / f) n
        ++ (if r.2 then [Event.write pin false] else [])) ∧
    (∃ n r, 1 ≤ n ∧ toneBlock_Volumn fuel b pin f dur 0 = .ok r ∧
      r.1.trace = b.trace ++ cycles pin 0 (2 * (500000 / f)) n
        ++ (if r.2 then [Event.write pin false] else [])) ∧
    (∃ n r, 1 ≤ n ∧ toneBlock_Volumn_us fuel b pin f dur 0 = .ok r ∧
      r.1.trace = b.trace ++ cycles pin 0 (2 * (500000 / f)) n
        ++ (if r.2 then [Event.write pin false] else [])) := by
  obtain ⟨d1, d2, d3, d4⟩ := volumn_delays f
  have hf0 : f ≠ 0 := by omega
  have hdiv : udiv 500000 f = .ok (500000 / f) := by
    unfold udiv
    rw [if_neg hf0]
  refine ⟨?_, ?_, ?_, ?_⟩
  · obtain ⟨n, hn, _, htr⟩ := blockRun_trace false fuel b pin (500000 / f) (500000 / f)
      ((millis b + dur) % 2 ^ 32) hfuel
    refine ⟨n, _, hn, ?_, htr⟩
    unfold toneBlock_Volumn
    simp only [hdiv, if_neg hf0, d1, d2]
  · obtain ⟨n, hn, _, htr⟩ := blockRun_trace true fuel b pin (500000 / f) (500000 / f)
      ((micros b + dur) % 2 ^ 32) hfuel
    refine ⟨n, _, hn, ?_, htr⟩
    unfold toneBlock_Volumn_us
    simp only [hdiv, if_neg hf0, d1, d2]
  · obtain ⟨n, hn, _, htr⟩ := blockRun_trace false fuel b pin 0 (2 * (500000 / f))
      ((millis b + dur) % 2 ^ 32) hfuel
    refine ⟨n, _, hn, ?_, htr⟩
    unfold toneBlock_Volumn
    simp only [hdiv, if_neg hf0, d3, d4]
  · obtain ⟨n, hn, _, htr⟩ := blockRun_trace true fuel b pin 0 (2 * (500000 / f))
      ((micros b + dur) % 2 ^ 32) hfuel
    refine ⟨n, _, hn, ?_, htr⟩
    unfold toneBlock_Volumn_us
    simp only [hdiv, if_neg hf0, d3, d4]

/-- C17 amended, at 1000 Hz with one turn of the loop allowed. -/
theorem C17_volume_extremes_witness :
    ∃ n r, 1 ≤ n ∧
      toneBlock_Volumn 1 { us := 0, pinLevel := fun _ => false, trace := [] } 3 1000 0 100
        = .ok r ∧
      r.1.trace = ([] : List Event) ++ cycles 3 (500000 / 1000) (500000 / 1000) n
        ++ (if r.2 then [Event.write 3 false] else []) :=
  (C17_volume_extremes 1 { us := 0, pinLevel := fun _ => false, trace := [] } 3 1000 0
    (by norm_num) (by norm_num) (by norm_num)).1

end Tone
